import Mathlib

/-!
Verification of the tm2bd task-migration core: a shallow embedding of the
dependency-graph validators (`src/schemas/taskmaster.ts`), the topological
tiering sort (`src/beads/cli.ts`), the identifier mapping store
(`src/mapping/id-mapper.ts`), the status syncer (`src/sync/status-syncer.ts`)
and the epic/child creators (`src/sync/epic-creator.ts`, child creator).

External effects are modelled explicitly: the beads CLI gateway becomes a
trace of `GwCall` values with creation result ids supplied as parameters,
file persistence becomes the structured `MappingFile` document, and the
recursive depth-first walks are given an explicit fuel of `tasks.length + 1`,
which provably bounds the recursion depth of the source functions.
-/

namespace Tm2bd

/-- Subtask record, after zod schema validation (`TaskMasterSubtaskSchema`). -/
structure TaskMasterSubtask where
  id : Int
  title : String
  description : String
  status : String
  dependencies : Option (List Int)
  details : Option String
deriving DecidableEq, Repr

/-- Task record, after zod schema validation (`TaskMasterTaskSchema`). -/
structure TaskMasterTask where
  id : Int
  title : String
  description : String
  status : String
  priority : String
  dependencies : List Int
  complexity : Option Int
  subtasks : Option (List TaskMasterSubtask)
  details : Option String
  testStrategy : Option String
deriving DecidableEq, Repr

/-- Result shape of both validators (`ValidationResult`). -/
structure ValidationResult where
  valid : Bool
  errors : List String
deriving DecidableEq, Repr

def taskIds (tasks : List TaskMasterTask) : List Int :=
  tasks.map (fun t => t.id)

/-- Error message pushed by `validateDependencyIds`. -/
def depErrMsg (taskId depId : Int) : String :=
  s!"Task {taskId} depends on non-existent task {depId}"

/-- `validateDependencyIds` from `src/schemas/taskmaster.ts` lines 99-112:
single pass over all tasks and all their dependency ids, collecting one
message per reference whose id is not in the task id set. -/
def validateDependencyIds (tasks : List TaskMasterTask) : ValidationResult :=
  let validIds := taskIds tasks
  let errors := tasks.foldl
    (fun errs task =>
      task.dependencies.foldl
        (fun errs2 depId =>
          if depId ∈ validIds then errs2 else errs2 ++ [depErrMsg task.id depId])
        errs)
    []
  { valid := errors.length == 0, errors := errors }

/-- The `Map` built by `new Map(tasks.map((t) => [t.id, t]))`: on duplicate
ids the later entry wins, like the JS `Map` constructor. -/
def buildTaskMap (tasks : List TaskMasterTask) : Int → Option TaskMasterTask :=
  fun i => tasks.foldl (fun acc t => if t.id = i then some t else acc) none

/-- Edge of the dependency graph the walkers actually traverse:
`DepEdge tmap a b` holds when the task found for id `a` lists `b` among its
dependencies. -/
def DepEdge (tmap : Int → Option TaskMasterTask) (a b : Int) : Prop :=
  match tmap a with
  | some t => b ∈ t.dependencies
  | none => False

instance (tmap : Int → Option TaskMasterTask) : DecidableRel (DepEdge tmap) :=
  fun a b =>
    match htm : tmap a with
    | some t => decidable_of_iff (b ∈ t.dependencies) (by simp [DepEdge, htm])
    | none => isFalse (by simp [DepEdge, htm])

/-- Rendering of a detected cycle by `validateCircularDependencies`
(`errors.push` of the joined cycle path). -/
def renderCycle (c : List Int) : String :=
  "Circular dependency: " ++ String.intercalate " → " (c.map toString)

/-- Marker appended only when the model's fuel runs out; provably
unreachable at fuel `tasks.length + 1`. -/
def cvFuelMsg : String := "model fuel exhausted"

/-- State of the cycle validator's depth-first walk: the `visited` and
`visiting` sets and the accumulated error list. -/
structure CycState where
  visited : List Int
  visiting : List Int
  errors : List String
deriving DecidableEq, Repr

/-- Sequential fold of a visit step over a dependency list: the
`for (const depId of task.dependencies) visit(depId, ...)` loop shape. -/
def cvFold (step : Int → CycState → CycState) : List Int → CycState → CycState
  | [], st => st
  | d :: ds, st => cvFold step ds (step d st)

/-- The inner `visit(taskId, path)` of `validateCircularDependencies`
(`src/schemas/taskmaster.ts` lines 120-139), with explicit fuel. -/
def cvVisit (tmap : Int → Option TaskMasterTask) :
    Nat → Int → List Int → CycState → CycState
  | 0, _, _, st => { st with errors := st.errors ++ [cvFuelMsg] }
  | fuel+1, taskId, path, st =>
    if taskId ∈ st.visited then st
    else if taskId ∈ st.visiting then
      let cycle := (path.drop (path.indexOf taskId)) ++ [taskId]
      { st with errors := st.errors ++ [renderCycle cycle] }
    else
      let st1 : CycState := { st with visiting := st.visiting ++ [taskId] }
      let st2 :=
        match tmap taskId with
        | none => st1
        | some task =>
          cvFold (fun d s => cvVisit tmap fuel d (path ++ [taskId]) s)
            task.dependencies st1
      { st2 with visiting := st2.visiting.erase taskId,
                 visited := st2.visited ++ [taskId] }

/-- The root loop `for (const task of tasks) if (!visited.has(task.id)) visit(task.id, [])`. -/
def cvRun (tmap : Int → Option TaskMasterTask) (fuel : Nat) :
    List TaskMasterTask → CycState → CycState
  | [], st => st
  | t :: ts, st =>
    cvRun tmap fuel ts (if t.id ∈ st.visited then st else cvVisit tmap fuel t.id [] st)

/-- `validateCircularDependencies` from `src/schemas/taskmaster.ts` lines 114-148. -/
def validateCircularDependencies (tasks : List TaskMasterTask) : ValidationResult :=
  let st := cvRun (buildTaskMap tasks) (tasks.length + 1) tasks ⟨[], [], []⟩
  { valid := st.errors.length == 0, errors := st.errors }

/-- Cycle error thrown by `topologicalSort`. -/
def cycleMsg (taskId : Int) : String :=
  "Circular dependency detected involving task " ++ toString taskId

/-- Unresolved-reference error thrown by `topologicalSort`. -/
def notFoundMsg (taskId : Int) : String :=
  "Task " ++ (toString taskId ++ " referenced but not found")

/-- Model marker for `tierMap.get(taskId)!` finding nothing; provably
unreachable. -/
def tierPanicMsg : String := "internal: tier missing in model"

/-- Model marker for fuel exhaustion of the sort's walk; provably
unreachable at fuel `tasks.length + 1`. -/
def tsFuelMsg : String := "sort walk ran out of model fuel"

/-- State of the sort's depth-first walk: `visited`, `visiting`, the tier
map and the accumulating `sorted` output array. -/
structure TsState where
  visited : List Int
  visiting : List Int
  tierMap : List (Int × Int)
  sorted : List (TaskMasterTask × Int)
deriving DecidableEq, Repr

/-- Sequential fold of a visit step over a dependency list, accumulating
`maxDepTier` and propagating thrown errors: the
`for (const depId of task.dependencies)` loop shape of the sort. -/
def tsFold (step : Int → TsState → Except String (TsState × Int)) :
    List Int → TsState → Int → Except String (TsState × Int)
  | [], st, acc => .ok (st, acc)
  | d :: ds, st, acc =>
    match step d st with
    | .error e => .error e
    | .ok (st1, k) => tsFold step ds st1 (max acc k)

/-- The inner `visit(taskId)` of `topologicalSort` (`src/beads/cli.ts`
lines 111-135), with explicit fuel: memoized return for visited nodes,
cycle error for in-progress nodes, unresolved-reference error for ids
missing from the map; otherwise computes `maxDepTier + 1`, records the
tier and pushes the task. -/
def tsVisit (tmap : Int → Option TaskMasterTask) :
    Nat → Int → TsState → Except String (TsState × Int)
  | 0, _, _ => .error tsFuelMsg
  | fuel+1, taskId, st =>
    if taskId ∈ st.visited then
      match List.lookup taskId st.tierMap with
      | some k => .ok (st, k)
      | none => .error tierPanicMsg
    else if taskId ∈ st.visiting then .error (cycleMsg taskId)
    else
      match tmap taskId with
      | none => .error (notFoundMsg taskId)
      | some task =>
        match tsFold (fun d s => tsVisit tmap fuel d s) task.dependencies
            { st with visiting := st.visiting ++ [taskId] } (-1) with
        | .error e => .error e
        | .ok (st2, maxDepTier) =>
          let tier := maxDepTier + 1
          .ok ({ visited := st2.visited ++ [taskId],
                 visiting := st2.visiting.erase taskId,
                 tierMap := (taskId, tier) :: st2.tierMap,
                 sorted := st2.sorted ++ [(task, tier)] }, tier)

/-- The root loop `for (const task of tasks) if (!visited.has(task.id)) visit(task.id)`. -/
def tsRun (tmap : Int → Option TaskMasterTask) (fuel : Nat) :
    List TaskMasterTask → TsState → Except String TsState
  | [], st => .ok st
  | t :: ts, st =>
    if t.id ∈ st.visited then tsRun tmap fuel ts st
    else match tsVisit tmap fuel t.id st with
      | .error e => .error e
      | .ok (st2, _) => tsRun tmap fuel ts st2

/-- The final comparator `(a, b) => a.tier - b.tier || a.task.id - b.task.id`
as a total preorder: ascending tier, then ascending task id. -/
def sortLe (a b : TaskMasterTask × Int) : Prop :=
  a.2 < b.2 ∨ (a.2 = b.2 ∧ a.1.id ≤ b.1.id)

instance : DecidableRel sortLe := by
  intro a b
  unfold sortLe
  infer_instance

instance : IsTotal (TaskMasterTask × Int) sortLe := by
  constructor
  intro a b
  rcases lt_trichotomy a.2 b.2 with h | h | h
  · exact Or.inl (Or.inl h)
  · rcases le_total a.1.id b.1.id with h2 | h2
    · exact Or.inl (Or.inr ⟨h, h2⟩)
    · exact Or.inr (Or.inr ⟨h.symm, h2⟩)
  · exact Or.inr (Or.inl h)

instance : IsTrans (TaskMasterTask × Int) sortLe := by
  constructor
  rintro a b c (h1 | ⟨h1, h1'⟩) (h2 | ⟨h2, h2'⟩)
  · exact Or.inl (h1.trans h2)
  · exact Or.inl (h2 ▸ h1)
  · exact Or.inl (h1 ▸ h2)
  · exact Or.inr ⟨h1.trans h2, h1'.trans h2'⟩

/-- `topologicalSort` from `src/beads/cli.ts` lines 104-145: run the walk
over every task, then sort the pushed `{task, tier}` pairs by ascending
tier and then ascending id. -/
def topologicalSort (tasks : List TaskMasterTask) :
    Except String (List (TaskMasterTask × Int)) :=
  match tsRun (buildTaskMap tasks) (tasks.length + 1) tasks ⟨[], [], [], []⟩ with
  | .error e => .error e
  | .ok st => .ok (List.insertionSort sortLe st.sorted)

/-- The strict part of the output ordering: strictly smaller tier, or
equal tier and strictly smaller task id. On outputs with distinct task
ids this is a strict total order. -/
def sortLt (a b : TaskMasterTask × Int) : Prop :=
  a.2 < b.2 ∨ (a.2 = b.2 ∧ a.1.id < b.1.id)

/-- Referential completeness: every dependency id of every task is a task id. -/
def CompleteRefs (tasks : List TaskMasterTask) : Prop :=
  ∀ t ∈ tasks, ∀ d ∈ t.dependencies, d ∈ taskIds tasks

/-- The data-model invariant: task ids are unique across the set. -/
def UniqueIds (tasks : List TaskMasterTask) : Prop :=
  (taskIds tasks).Nodup

/-- A rank function strictly decreasing along dependency edges. -/
def AcyclicRank (tasks : List TaskMasterTask) (r : Int → Nat) : Prop :=
  ∀ t ∈ tasks, ∀ d ∈ t.dependencies, r d < r t.id

/-- Acyclicity of the task set: some rank strictly decreases along every
dependency edge. -/
def Acyclic (tasks : List TaskMasterTask) : Prop :=
  ∃ r : Int → Nat, AcyclicRank tasks r

/-- A concrete dependency cycle in the graph the walkers traverse. -/
def HasCycle (tasks : List TaskMasterTask) : Prop :=
  ∃ i l, List.Chain (DepEdge (buildTaskMap tasks)) i (l ++ [i])

/-- Invariant of the sort's walk state: the pushed `sorted` array lists
exactly the visited ids in visit order, stores the task the map holds for
that id, the tier map records exactly the visited ids with the pushed
tiers, every pushed task's dependencies are already visited, and every
pushed tier satisfies the `maxDepTier + 1` recurrence over the recorded
tiers of its dependencies. -/
structure TsInv (tasks : List TaskMasterTask) (st : TsState) : Prop where
  sorted_vis : st.sorted.map (fun p => p.1.id) = st.visited
  vis_nodup : st.visited.Nodup
  vis_sub : ∀ i ∈ st.visited, i ∈ taskIds tasks
  map_sorted : ∀ p ∈ st.sorted, buildTaskMap tasks p.1.id = some p.1
  tier_keys : st.tierMap.map Prod.fst = st.visited.reverse
  tier_sorted : ∀ p ∈ st.sorted, List.lookup p.1.id st.tierMap = some p.2
  deps_vis : ∀ p ∈ st.sorted, ∀ d ∈ p.1.dependencies, d ∈ st.visited
  rec_tier : ∀ p ∈ st.sorted,
    p.2 = (p.1.dependencies.foldl
      (fun a d => max a ((List.lookup d st.tierMap).getD 0)) (-1)) + 1
  tier_nonneg : ∀ p ∈ st.sorted, 0 ≤ p.2

/-- What one successful `visit` call guarantees relative to its starting
state: `visiting` is restored, `visited` and `sorted` only grow (new
visited ids were not on the stack), recorded tiers persist, and the
returned tier is recorded for the visited id. -/
structure TsVisitPost (st st2 : TsState) (taskId : Int) (k : Int) : Prop where
  visiting_eq : st2.visiting = st.visiting
  visited_ext : ∃ ext, st2.visited = st.visited ++ ext ∧ ∀ x ∈ ext, x ∉ st.visiting
  sorted_ext : ∃ ext, st2.sorted = st.sorted ++ ext
  tier_mono : ∀ i k0, List.lookup i st.tierMap = some k0 → List.lookup i st2.tierMap = some k0
  mem_visited : taskId ∈ st2.visited
  tier_val : List.lookup taskId st2.tierMap = some k

/-- What one successful dependency fold guarantees: the state evolves as
in `TsVisitPost`, every folded dependency ends up visited, and the
accumulator is the running maximum of the recorded dependency tiers. -/
structure TsFoldPost (st st2 : TsState) (ds : List Int) (acc m : Int) : Prop where
  visiting_eq : st2.visiting = st.visiting
  visited_ext : ∃ ext, st2.visited = st.visited ++ ext ∧ ∀ x ∈ ext, x ∉ st.visiting
  sorted_ext : ∃ ext, st2.sorted = st.sorted ++ ext
  tier_mono : ∀ i k0, List.lookup i st.tierMap = some k0 → List.lookup i st2.tierMap = some k0
  deps_visited : ∀ d ∈ ds, d ∈ st2.visited
  m_char : m = ds.foldl (fun a d => max a ((List.lookup d st2.tierMap).getD 0)) acc
  m_ge : acc ≤ m

/-- Tier paired with a task id in a sort output (0 when absent). -/
def tierFn (out : List (TaskMasterTask × Int)) (i : Int) : Int :=
  match out.find? (fun p => p.1.id == i) with
  | some p => p.2
  | none => 0

/-- Destination mapping of one subtask (`SubtaskMapping`). -/
structure SubtaskMapping where
  tmId : Int
  beadsId : String
deriving DecidableEq, Repr

/-- Destination mapping of one task with its subtasks (`TaskMapping`). -/
structure TaskMapping where
  tmId : Int
  beadsId : String
  subtasks : List SubtaskMapping
deriving DecidableEq, Repr

/-- The persisted mapping document (`MappingFile`): what `save` serializes
to JSON and `load` parses back. -/
structure MappingFile where
  version : String
  generatedAt : String
  tasks : List TaskMapping
deriving DecidableEq, Repr

/-- The in-memory mapping store (`IdMapper`). -/
structure IdMapper where
  tasks : List TaskMapping
deriving DecidableEq, Repr

def emptyMapper : IdMapper := ⟨[]⟩

/-- `IdMapper.addEpic`: pushes a fresh entry with no subtasks. -/
def IdMapper.addEpic (m : IdMapper) (tmId : Int) (beadsId : String) : IdMapper :=
  ⟨m.tasks ++ [⟨tmId, beadsId, []⟩]⟩

/-- Error thrown by `addSubtask` when the parent entry is missing. -/
def subtaskErrMsg (taskTmId : Int) : String :=
  s!"Task {taskTmId} not found in mapping"

/-- Mutating `task.subtasks.push(...)` on the first entry `find` returns:
`none` when no entry matches. -/
def addSubtaskAux (taskTmId subtaskTmId : Int) (beadsId : String) :
    List TaskMapping → Option (List TaskMapping)
  | [] => none
  | t :: ts =>
    if t.tmId = taskTmId then
      some ({ t with subtasks := t.subtasks ++ [⟨subtaskTmId, beadsId⟩] } :: ts)
    else
      (addSubtaskAux taskTmId subtaskTmId beadsId ts).map (fun ts2 => t :: ts2)

/-- `IdMapper.addSubtask` (`src/mapping/id-mapper.ts` lines 27-31): throws
when no entry with the parent id exists, otherwise appends to that entry's
subtask list. -/
def IdMapper.addSubtask (m : IdMapper) (taskTmId subtaskTmId : Int) (beadsId : String) :
    Except String IdMapper :=
  match addSubtaskAux taskTmId subtaskTmId beadsId m.tasks with
  | none => .error (subtaskErrMsg taskTmId)
  | some ts => .ok ⟨ts⟩

/-- `IdMapper.getEpicId`: `this.tasks.find((t) => t.tmId === tmId)?.beadsId`. -/
def IdMapper.getEpicId (m : IdMapper) (tmId : Int) : Option String :=
  (m.tasks.find? (fun t => t.tmId == tmId)).map (fun t => t.beadsId)

/-- `IdMapper.getSubtaskId`: find the parent entry, then the subtask entry. -/
def IdMapper.getSubtaskId (m : IdMapper) (taskTmId subtaskTmId : Int) : Option String :=
  match m.tasks.find? (fun t => t.tmId == taskTmId) with
  | none => none
  | some t => (t.subtasks.find? (fun s => s.tmId == subtaskTmId)).map (fun s => s.beadsId)

/-- `IdMapper.getStats`: `(epicCount, childCount)`. -/
def IdMapper.getStats (m : IdMapper) : Int × Int :=
  (m.tasks.length, m.tasks.foldl (fun sum t => sum + t.subtasks.length) 0)

/-- `IdMapper.save`: the structured document written to disk; the
timestamp is taken fresh at save time and passed here as a parameter. -/
def IdMapper.save (m : IdMapper) (generatedAt : String) : MappingFile :=
  { version := "1.0", generatedAt := generatedAt, tasks := m.tasks }

/-- `IdMapper.load`: a fresh store whose tasks are exactly the file's tasks. -/
def IdMapper.load (file : MappingFile) : IdMapper := ⟨file.tasks⟩

/-- A sequence of mutations against the store, for stating round-trip
properties over stores built by `addEpic`/`addSubtask` calls. -/
inductive MapOp where
  | addEpic (tmId : Int) (beadsId : String)
  | addSubtask (taskTmId subtaskTmId : Int) (beadsId : String)
deriving DecidableEq, Repr

/-- Run a sequence of mapping-store operations; `none` when an
`addSubtask` throws. -/
def runOps : List MapOp → IdMapper → Option IdMapper
  | [], m => some m
  | MapOp.addEpic i b :: ops, m => runOps ops (m.addEpic i b)
  | MapOp.addSubtask i j b :: ops, m =>
    match m.addSubtask i j b with
    | .error _ => none
    | .ok m2 => runOps ops m2

/-- One logical operation against the external beads CLI gateway. -/
inductive GwCall where
  | createEpicCall (title description : String) (priority : Option Int)
  | createChildCall (parentId title description : String)
  | addDependency (blockedId blockingId : String)
  | updateStatus (issueId : String) (status : String)
  | closeCall (issueId : String)
deriving DecidableEq, Repr

/-- The action record returned by `mapStatus` (`status-syncer.ts` lines 5-15):
string-keyed record with the `?? {close: false}` fallback. -/
structure StatusAction where
  status : Option String
  close : Bool
deriving DecidableEq, Repr

def mapStatus (tmStatus : String) : StatusAction :=
  (List.lookup tmStatus
    [("pending", ⟨none, false⟩),
     ("in-progress", ⟨some "in_progress", false⟩),
     ("done", ⟨none, true⟩),
     ("deferred", ⟨some "deferred", false⟩),
     ("cancelled", ⟨none, true⟩),
     ("blocked", ⟨some "blocked", false⟩)]).getD ⟨none, false⟩

def epicMissingMsg (taskId : Int) : String :=
  s!"Epic ID not found for task {taskId}"

def subtaskMissingMsg (taskId subId : Int) : String :=
  s!"Subtask ID not found for {taskId}.{subId}"

/-- The `if (close) await cli.close(...) else if (status) await
cli.updateStatus(...)` branch shared by both sync functions, as the trace
of gateway calls issued for one entity. -/
def entityStatusCalls (tmStatus destId : String) : List GwCall :=
  let a := mapStatus tmStatus
  if a.close then [GwCall.closeCall destId]
  else
    match a.status with
    | some s => [GwCall.updateStatus destId s]
    | none => []

/-- `syncEpicStatus` (`status-syncer.ts` lines 17-32) as a gateway trace.
The guard `if (!epicId) throw` is a JS falsy check: it throws both when the
lookup misses (`undefined`) and when it yields the empty string. -/
def syncEpicStatus (task : TaskMasterTask) (mapper : IdMapper) :
    Except String (List GwCall) :=
  match mapper.getEpicId task.id with
  | none => .error (epicMissingMsg task.id)
  | some epicId =>
    if epicId = "" then .error (epicMissingMsg task.id)
    else .ok (entityStatusCalls task.status epicId)

/-- The loop body of `syncSubtaskStatus`, over the subtask list. The guard
`if (!subtaskId) throw` (`status-syncer.ts` line 43) is a JS falsy check,
throwing on a missing lookup and on the empty string alike. -/
def syncSubtasksAux (taskId : Int) (mapper : IdMapper) :
    List TaskMasterSubtask → Except String (List GwCall)
  | [] => .ok []
  | s :: ss =>
    match mapper.getSubtaskId taskId s.id with
    | none => .error (subtaskMissingMsg taskId s.id)
    | some subId =>
      if subId = "" then .error (subtaskMissingMsg taskId s.id)
      else
        match syncSubtasksAux taskId mapper ss with
        | .error e => .error e
        | .ok rest => .ok (entityStatusCalls s.status subId ++ rest)

/-- `syncSubtaskStatus` (`status-syncer.ts` lines 34-53) as a gateway trace. -/
def syncSubtaskStatus (task : TaskMasterTask) (mapper : IdMapper) :
    Except String (List GwCall) :=
  match task.subtasks with
  | none => .ok []
  | some subs => syncSubtasksAux task.id mapper subs

/-- `mapPriority` (`epic-creator.ts` lines 5-8): record lookup. -/
def mapPriority (tmPriority : String) : Option Int :=
  List.lookup tmPriority [("high", (0 : Int)), ("medium", 1), ("low", 2)]

/-- `formatEpicDescription` (`epic-creator.ts` lines 10-29); the JS
truthiness checks skip empty strings as well as absent fields. -/
def formatEpicDescription (task : TaskMasterTask) : String :=
  let parts := ["## Description", task.description, ""]
  let parts := parts ++
    (match task.details with
     | some d => if d = "" then [] else ["## Implementation Details", d, ""]
     | none => [])
  let parts := parts ++
    (match task.testStrategy with
     | some s => if s = "" then [] else ["## Test Strategy", s, ""]
     | none => [])
  let parts := parts ++ ["## Metadata"]
  let parts := parts ++ ["- Task-Master ID: " ++ toString task.id]
  let parts := parts ++
    (match task.complexity with
     | some c => if c = 0 then [] else ["- Complexity: " ++ toString c ++ "/10"]
     | none => [])
  let parts := parts ++ ["- Original Status: " ++ task.status]
  String.intercalate "\n" parts

/-- `createEpic` (`epic-creator.ts` lines 31-41) as a gateway trace: the
creation call is issued unconditionally and the returned id (supplied here
as `resultId`) is recorded via `addEpic`. -/
def createEpic (task : TaskMasterTask) (resultId : String) (mapper : IdMapper) :
    List GwCall × IdMapper × String :=
  let description := formatEpicDescription task
  let priority := mapPriority task.priority
  ([GwCall.createEpicCall task.title description priority],
   mapper.addEpic task.id resultId, resultId)

/-- `formatChildDescription` (child creator lines 5-13). -/
def formatChildDescription (s : TaskMasterSubtask) : String :=
  let parts := [s.description]
  let parts := parts ++
    (match s.details with
     | some d => if d = "" then [] else ["", "## Implementation Details", d]
     | none => [])
  String.intercalate "\n" parts

/-- Subtask creation order: ascending subtask id. -/
def subLe (a b : TaskMasterSubtask) : Prop := a.id ≤ b.id

instance : DecidableRel subLe := by
  intro a b
  unfold subLe
  infer_instance

/-- The creation loop of `createChildren` over the id-sorted subtasks. -/
def createChildrenAux (taskId : Int) (epicId : String) (childId : Int → String) :
    List TaskMasterSubtask → IdMapper → Except String (List GwCall × IdMapper)
  | [], m => .ok ([], m)
  | s :: ss, m =>
    let description := formatChildDescription s
    match m.addSubtask taskId s.id (childId s.id) with
    | .error e => .error e
    | .ok m2 =>
      match createChildrenAux taskId epicId childId ss m2 with
      | .error e => .error e
      | .ok (calls, m3) =>
        .ok (GwCall.createChildCall epicId s.title description :: calls, m3)

/-- `createChildren` (child creator lines 15-30) as a gateway trace: sorts
the subtasks by ascending id, then unconditionally creates each one,
recording the returned id (supplied as `childId s.id`) via `addSubtask`. -/
def createChildren (task : TaskMasterTask) (epicId : String)
    (childId : Int → String) (mapper : IdMapper) :
    Except String (List GwCall × IdMapper) :=
  match task.subtasks with
  | none => .ok ([], mapper)
  | some subs =>
    if subs.length = 0 then .ok ([], mapper)
    else createChildrenAux task.id epicId childId (List.insertionSort subLe subs) mapper

/-- Scenario A's task set: 1 with no dependencies, 2 depending on 1,
3 depending on 1 and 2. -/
def demoTasks : List TaskMasterTask :=
  [⟨1, "t", "d", "pending", "high", [], none, none, none, none⟩,
   ⟨2, "t", "d", "pending", "high", [1], none, none, none, none⟩,
   ⟨3, "t", "d", "pending", "high", [1, 2], none, none, none, none⟩]

/-- Scenario A's task set in a different input order. -/
def demoTasksShuffled : List TaskMasterTask :=
  [⟨3, "t", "d", "pending", "high", [1, 2], none, none, none, none⟩,
   ⟨1, "t", "d", "pending", "high", [], none, none, none, none⟩,
   ⟨2, "t", "d", "pending", "high", [1], none, none, none, none⟩]

/-- Minimal task value used by concrete examples. -/
def mkTask (i : Int) (deps : List Int) : TaskMasterTask :=
  ⟨i, "t", "d", "pending", "high", deps, none, none, none, none⟩

/-- Minimal subtask value used by concrete examples. -/
def mkSub (i : Int) : TaskMasterSubtask :=
  ⟨i, "st", "sd", "pending", none, none⟩

/-- The reference-missing list the amended dependency validator property
compares against: one message per offending reference occurrence. -/
def missingRefMsgs (tasks : List TaskMasterTask) : List String :=
  tasks.bind
    (fun t => (t.dependencies.filter (fun d => decide (d ∉ taskIds tasks))).map
      (fun d => depErrMsg t.id d))

/-- Shape of every error the cycle validator records: the rendering of a
genuine dependency cycle, in traversal order, starting and ending at the
repeated node, with no interior repetition of that node. -/
def GoodCycleError (tmap : Int → Option TaskMasterTask) (e : String) : Prop :=
  ∃ i cmid, e = renderCycle (i :: (cmid ++ [i])) ∧
    List.Chain' (DepEdge tmap) (i :: (cmid ++ [i])) ∧ i ∉ cmid

/-- Store holding parent entry 1 ↦ "X-1", used by concrete examples. -/
def demoMapper : IdMapper := ⟨[⟨1, "X-1", []⟩]⟩

/-- Store holding parent 1 ↦ "X-1" with subtask 1 ↦ "X-1.1". -/
def demoMapperFull : IdMapper := ⟨[⟨1, "X-1", [⟨1, "X-1.1"⟩]⟩]⟩

/-- The operation sequence of Scenario D. -/
def demoOps : List MapOp := [.addEpic 1 "X-1", .addSubtask 1 1 "X-1.1"]

/-- A task that already has a mapping entry in `demoMapperFull`, with one
subtask that also already has an entry. -/
def demoTaskWithSub : TaskMasterTask :=
  { mkTask 1 [] with subtasks := some [mkSub 1] }

end Tm2bd

namespace Tm2bd

/-! Helper lemmas for the mapping store. -/

theorem getEpicId_none_mem (m : IdMapper) (p : Int) (h : m.getEpicId p = none) :
    ∀ t ∈ m.tasks, t.tmId ≠ p := by
  intro t ht
  unfold IdMapper.getEpicId at h
  rcases hf : m.tasks.find? (fun t => t.tmId == p) with _ | t2
  · have := List.find?_eq_none.mp hf t ht
    simpa using this
  · rw [hf] at h
    simp at h

theorem addSubtaskAux_eq_none (p s : Int) (b : String) :
    ∀ ts : List TaskMapping, (∀ t ∈ ts, t.tmId ≠ p) →
      addSubtaskAux p s b ts = none := by
  intro ts
  induction ts with
  | nil => intro _; rfl
  | cons t ts ih =>
    intro hall
    unfold addSubtaskAux
    rw [if_neg (hall t (by simp))]
    rw [ih (fun x hx => hall x (by simp [hx]))]
    rfl

/-- C8: for every mapping store state and every parent id with no
registered entry, `addSubtask` for that parent id raises the "not found"
error; in this pure embedding the erroring call returns no store, so the
caller's store is unchanged and all subsequent lookups are unaffected. -/
theorem addSubtask_missing_parent (m : IdMapper) (p s : Int) (b : String)
    (h : m.getEpicId p = none) :
    m.addSubtask p s b = Except.error (subtaskErrMsg p) := by
  unfold IdMapper.addSubtask
  rw [addSubtaskAux_eq_none p s b m.tasks (getEpicId_none_mem m p h)]

/-- Witness for C8 at the empty store and parent id 1. -/
theorem addSubtask_missing_parent_witness :
    emptyMapper.getEpicId 1 = none ∧
    emptyMapper.addSubtask 1 2 "X-1.2" = Except.error (subtaskErrMsg 1) :=
  ⟨rfl, addSubtask_missing_parent emptyMapper 1 2 "X-1.2" rfl⟩

/-- C4: for every store built by a sequence of `addEpic`/`addSubtask`
calls, loading the file produced by `save` yields a store whose
`getEpicId` and `getSubtaskId` results equal the original store's results
for every id and id pair (in particular for every id originally present). -/
theorem mapper_roundtrip (ops : List MapOp) (m : IdMapper) (genAt : String)
    (h : runOps ops emptyMapper = some m) :
    (∀ i, (IdMapper.load (m.save genAt)).getEpicId i = m.getEpicId i) ∧
    (∀ i j, (IdMapper.load (m.save genAt)).getSubtaskId i j = m.getSubtaskId i j) := by
  constructor
  · intro i; rfl
  · intro i j; rfl

/-- Witness for C4 at Scenario D's operation sequence. -/
theorem mapper_roundtrip_witness :
    (IdMapper.load (demoMapperFull.save "2025-01-01T00:00:00.000Z")).getEpicId 1 =
      demoMapperFull.getEpicId 1 ∧
    (IdMapper.load (demoMapperFull.save "2025-01-01T00:00:00.000Z")).getSubtaskId 1 1 =
      demoMapperFull.getSubtaskId 1 1 :=
  ⟨(mapper_roundtrip demoOps demoMapperFull "2025-01-01T00:00:00.000Z" (by decide)).1 1,
   (mapper_roundtrip demoOps demoMapperFull "2025-01-01T00:00:00.000Z" (by decide)).2 1 1⟩

/-- C2: evaluation of the creation phase at a resumed-run state. The
store already maps task 1 (and subtask pair (1,1)), yet `createEpic`
still issues the external creation call and appends a duplicate entry
(epic count becomes 2), and `createChildren` still issues a `createChild`
call for the already-mapped subtask (child count becomes 2): creation is
re-invoked even for entities whose mapping entries exist. -/
theorem createEpic_ignores_existing_mapping :
    demoMapper.getEpicId 1 = some "X-1" ∧
    (createEpic (mkTask 1 []) "X-new" demoMapper).1 =
      [GwCall.createEpicCall "t" (formatEpicDescription (mkTask 1 [])) (some 0)] ∧
    ((createEpic (mkTask 1 []) "X-new" demoMapper).2.1).getStats = (2, 0) ∧
    demoMapperFull.getSubtaskId 1 1 = some "X-1.1" ∧
    (∃ calls m2,
      createChildren demoTaskWithSub "X-1" (fun _ => "X-new.1") demoMapperFull =
        .ok (calls, m2) ∧ calls.length = 1 ∧ m2.getStats = (1, 2)) := by
  refine ⟨rfl, rfl, rfl, rfl, ?_⟩
  exact ⟨[GwCall.createChildCall "X-1" "st" "sd"],
    ⟨[⟨1, "X-1", [⟨1, "X-1.1"⟩, ⟨1, "X-new.1"⟩]⟩]⟩, rfl, rfl, rfl⟩

/-! Helper lemmas for the dependency-id validator. -/

theorem depFold_append (V : List Int) (tid : Int) :
    ∀ (deps : List Int) (errs : List String),
      deps.foldl (fun e d => if d ∈ V then e else e ++ [depErrMsg tid d]) errs =
        errs ++ (deps.filter (fun d => decide (d ∉ V))).map (fun d => depErrMsg tid d) := by
  intro deps
  induction deps with
  | nil => intro errs; simp
  | cons d ds ih =>
    intro errs
    by_cases hd : d ∈ V
    · simp only [List.foldl_cons, if_pos hd, List.filter_cons]
      simp [hd, ih]
    · simp only [List.foldl_cons, if_neg hd, List.filter_cons]
      simp [hd, ih errs]
      simp [ih, List.append_assoc]

theorem valFold_append (tasks : List TaskMasterTask) :
    ∀ (ts : List TaskMasterTask) (errs : List String),
      ts.foldl
        (fun errs2 task =>
          task.dependencies.foldl
            (fun errs3 depId =>
              if depId ∈ taskIds tasks then errs3
              else errs3 ++ [depErrMsg task.id depId])
            errs2)
        errs =
      errs ++ ts.bind
        (fun t => (t.dependencies.filter (fun d => decide (d ∉ taskIds tasks))).map
          (fun d => depErrMsg t.id d)) := by
  intro ts
  induction ts with
  | nil => intro errs; simp
  | cons t ts ih =>
    intro errs
    simp only [List.foldl_cons]
    rw [depFold_append (taskIds tasks) t.id t.dependencies errs, ih]
    simp [List.append_assoc]

/-- C6 counterexample: a task whose dependency list repeats the missing id
99 produces two messages, though there is exactly one offending
(task, dependency id) pair. -/
theorem validateDependencyIds_duplicate_pair :
    (validateDependencyIds [mkTask 1 [99, 99]]).errors =
      [depErrMsg 1 99, depErrMsg 1 99] ∧
    (validateDependencyIds [mkTask 1 [99, 99]]).errors.length = 2 := by
  constructor
  · rfl
  · rfl

/-- C6 amended: `validateDependencyIds` returns exactly one message per
occurrence of a dependency reference whose id is absent from the task id
set (so a duplicated missing id yields one message per occurrence), in a
single pass with no early abort; each message is `depErrMsg` of the
offending task id and the missing id; the `valid` flag is true exactly
when the error sequence is empty; the input is not mutated (the embedding
is pure). -/
theorem validateDependencyIds_messages (tasks : List TaskMasterTask) :
    (validateDependencyIds tasks).errors = missingRefMsgs tasks ∧
    ((validateDependencyIds tasks).valid = true ↔
      (validateDependencyIds tasks).errors = []) := by
  have herr : (validateDependencyIds tasks).errors = missingRefMsgs tasks := by
    unfold validateDependencyIds missingRefMsgs
    simpa using valFold_append tasks tasks []
  refine ⟨herr, ?_⟩
  unfold validateDependencyIds
  simp [List.length_eq_zero]

/-! Helper lemmas for the status syncer. -/

theorem syncSubtasksAux_ok (tid : Int) (m : IdMapper) :
    ∀ subs : List TaskMasterSubtask,
      (∀ s ∈ subs, (m.getSubtaskId tid s.id).getD "" ≠ "") →
      syncSubtasksAux tid m subs =
        .ok (subs.bind
          (fun s => entityStatusCalls s.status ((m.getSubtaskId tid s.id).getD ""))) := by
  intro subs
  induction subs with
  | nil => intro _; rfl
  | cons s ss ih =>
    intro hall
    have hs := hall s (by simp)
    rcases ho : m.getSubtaskId tid s.id with _ | sid
    · rw [ho] at hs; simp at hs
    · rw [ho] at hs
      simp only [Option.getD_some] at hs
      unfold syncSubtasksAux
      rw [ho, ih (fun x hx => hall x (by simp [hx]))]
      simp [ho, hs]

/-- C5: status syncing issues exactly one destination action or none per
entity. When the mapper resolves each entity to a nonempty destination id
(so the JS falsy guards `if (!epicId)` / `if (!subtaskId)` do not throw),
`syncEpicStatus` issues exactly the per-entity action trace for
the task's status, `syncSubtaskStatus` issues the concatenation of the
per-entity traces of its subtasks, and the per-entity trace maps
done/cancelled to a single close call, in-progress, deferred and blocked
to a single status update with the corresponding destination status,
pending to no call; every per-entity trace is empty, a single close call,
or a single status update, so close and status-update are never both
issued for one entity. -/
theorem statusSync_actions (t : TaskMasterTask) (m : IdMapper) (e : String)
    (he : m.getEpicId t.id = some e) (he2 : e ≠ "") :
    syncEpicStatus t m = .ok (entityStatusCalls t.status e) ∧
    (∀ subs, t.subtasks = some subs →
      (∀ s ∈ subs, (m.getSubtaskId t.id s.id).getD "" ≠ "") →
      syncSubtaskStatus t m =
        .ok (subs.bind
          (fun s => entityStatusCalls s.status ((m.getSubtaskId t.id s.id).getD "")))) ∧
    (∀ d, entityStatusCalls "done" d = [GwCall.closeCall d]) ∧
    (∀ d, entityStatusCalls "cancelled" d = [GwCall.closeCall d]) ∧
    (∀ d, entityStatusCalls "in-progress" d = [GwCall.updateStatus d "in_progress"]) ∧
    (∀ d, entityStatusCalls "deferred" d = [GwCall.updateStatus d "deferred"]) ∧
    (∀ d, entityStatusCalls "blocked" d = [GwCall.updateStatus d "blocked"]) ∧
    (∀ d, entityStatusCalls "pending" d = []) ∧
    (∀ s d, entityStatusCalls s d = [] ∨
      entityStatusCalls s d = [GwCall.closeCall d] ∨
      ∃ s2, entityStatusCalls s d = [GwCall.updateStatus d s2]) := by
  refine ⟨?_, ?_, fun d => rfl, fun d => rfl, fun d => rfl, fun d => rfl,
    fun d => rfl, fun d => rfl, ?_⟩
  · simp [syncEpicStatus, he, he2]
  · intro subs hsubs hall
    unfold syncSubtaskStatus
    rw [hsubs]
    exact syncSubtasksAux_ok t.id m subs hall
  · intro s d
    unfold entityStatusCalls
    rcases h : (mapStatus s).close
    · rcases h2 : (mapStatus s).status with _ | s2
      · simp [h, h2]
      · simp [h, h2]
    · simp [h]

/-- Witness for C5 at a pending task with one pending subtask. -/
theorem statusSync_actions_witness :
    syncEpicStatus demoTaskWithSub demoMapperFull =
      .ok (entityStatusCalls demoTaskWithSub.status "X-1") :=
  (statusSync_actions demoTaskWithSub demoMapperFull "X-1" (by decide)
    (by decide)).1

end Tm2bd

namespace Tm2bd

/-! Basic lemmas about the task map and list bookkeeping. -/

theorem buildTaskMap_aux_some (i : Int) (t : TaskMasterTask) :
    ∀ (l : List TaskMasterTask) (acc : Option TaskMasterTask),
      l.foldl (fun acc t2 => if t2.id = i then some t2 else acc) acc = some t →
      (t ∈ l ∧ t.id = i) ∨ acc = some t := by
  intro l
  induction l with
  | nil => intro acc h; exact Or.inr h
  | cons x xs ih =>
    intro acc h
    rcases ih _ h with h2 | h2
    · exact Or.inl ⟨List.mem_cons_of_mem x h2.1, h2.2⟩
    · dsimp only at h2
      by_cases hx : x.id = i
      · rw [if_pos hx] at h2
        injection h2 with h3
        subst h3
        exact Or.inl ⟨List.mem_cons_self x xs, hx⟩
      · rw [if_neg hx] at h2
        exact Or.inr h2

theorem buildTaskMap_some_mem {tasks : List TaskMasterTask} {i : Int} {t : TaskMasterTask}
    (h : buildTaskMap tasks i = some t) : t ∈ tasks ∧ t.id = i := by
  unfold buildTaskMap at h
  rcases buildTaskMap_aux_some i t tasks none h with h2 | h2
  · exact h2
  · cases h2

theorem buildTaskMap_some_id_mem {tasks : List TaskMasterTask} {i : Int}
    {t : TaskMasterTask} (h : buildTaskMap tasks i = some t) : i ∈ taskIds tasks := by
  rcases buildTaskMap_some_mem h with ⟨hm, hid⟩
  exact hid ▸ List.mem_map_of_mem (fun t => t.id) hm

theorem buildTaskMap_aux_none (i : Int) :
    ∀ (l : List TaskMasterTask) (acc : Option TaskMasterTask),
      l.foldl (fun acc t2 => if t2.id = i then some t2 else acc) acc = none →
      acc = none ∧ ∀ t ∈ l, t.id ≠ i := by
  intro l
  induction l with
  | nil => intro acc h; exact ⟨h, by simp⟩
  | cons x xs ih =>
    intro acc h
    rcases ih _ h with ⟨hacc, hall⟩
    dsimp only at hacc
    by_cases hx : x.id = i
    · rw [if_pos hx] at hacc; cases hacc
    · rw [if_neg hx] at hacc
      refine ⟨hacc, ?_⟩
      intro t ht
      rcases List.mem_cons.mp ht with h2 | h2
      · exact h2 ▸ hx
      · exact hall t h2

theorem buildTaskMap_none_not_mem {tasks : List TaskMasterTask} {i : Int}
    (h : buildTaskMap tasks i = none) : i ∉ taskIds tasks := by
  intro hmem
  rcases List.mem_map.mp hmem with ⟨t, ht, hid⟩
  exact (buildTaskMap_aux_none i tasks none h).2 t ht hid

theorem buildTaskMap_mem_some {tasks : List TaskMasterTask} {i : Int}
    (h : i ∈ taskIds tasks) : ∃ t, buildTaskMap tasks i = some t := by
  rcases he : buildTaskMap tasks i with _ | t
  · exact absurd h (buildTaskMap_none_not_mem he)
  · exact ⟨t, rfl⟩

theorem nodup_subset_length {l l2 : List Int} (h : l.Nodup) (hs : l ⊆ l2) :
    l.length ≤ l2.length := by
  have h1 : l.toFinset.card = l.length := List.toFinset_card_of_nodup h
  have h2 : l.toFinset ⊆ l2.toFinset := by
    intro x hx
    simp only [List.mem_toFinset] at hx ⊢
    exact hs hx
  calc l.length = l.toFinset.card := h1.symm
    _ ≤ l2.toFinset.card := Finset.card_le_card h2
    _ ≤ l2.length := List.toFinset_card_le l2

theorem drop_indexOf_cons {l : List Int} {a : Int} (h : a ∈ l) :
    l.drop (l.indexOf a) = a :: l.drop (l.indexOf a + 1) ∧ l.indexOf a < l.length := by
  induction l with
  | nil => cases h
  | cons b bs ih =>
    by_cases hb : b == a
    · have hba : b = a := by simpa using hb
      subst hba
      constructor
      · simp [List.indexOf_cons_self]
      · simp [List.indexOf_cons_self]
    · have hmem : a ∈ bs := by
        rcases List.mem_cons.mp h with h2 | h2
        · exact absurd (by simp [h2]) hb
        · exact h2
      rcases ih hmem with ⟨hd, hlt⟩
      have hidx : (b :: bs).indexOf a = bs.indexOf a + 1 := by
        simp [List.indexOf_cons, hb]
      constructor
      · rw [hidx]
        simpa using hd
      · rw [hidx]
        simpa using hlt

theorem erase_append_singleton {l : List Int} {a : Int} (h : a ∉ l) :
    (l ++ [a]).erase a = l := by
  rw [List.erase_append_right _ h, List.erase_cons_head]
  simp

theorem chain'_snoc {R : Int → Int → Prop} {l : List Int} {a b : Int}
    (h : List.Chain' R (l ++ [a])) (hab : R a b) :
    List.Chain' R ((l ++ [a]) ++ [b]) := by
  apply List.Chain'.append h (List.chain'_singleton b)
  intro x hx y hy
  simp at hx hy
  subst hx; subst hy
  exact hab

end Tm2bd

namespace Tm2bd

/-! The cycle validator records only genuine traversal-stack cycle slices. -/

theorem cvVisit_good (tasks : List TaskMasterTask) :
    ∀ fuel taskId path st,
      st.visiting = path →
      path.Nodup →
      List.Chain' (DepEdge (buildTaskMap tasks)) (path ++ [taskId]) →
      (∀ v ∈ path, ∃ t, buildTaskMap tasks v = some t) →
      tasks.length + 1 ≤ fuel + path.length →
      (cvVisit (buildTaskMap tasks) fuel taskId path st).visiting = st.visiting ∧
      ∃ newE, (cvVisit (buildTaskMap tasks) fuel taskId path st).errors = st.errors ++ newE ∧
        ∀ e ∈ newE, GoodCycleError (buildTaskMap tasks) e := by
  intro fuel
  induction fuel with
  | zero =>
    intro taskId path st h1 h2 h3 h4 h5
    exfalso
    have hsub : path ⊆ taskIds tasks := by
      intro v hv
      rcases h4 v hv with ⟨t, ht⟩
      exact buildTaskMap_some_id_mem ht
    have h6 := nodup_subset_length h2 hsub
    have h7 : (taskIds tasks).length = tasks.length := by simp [taskIds]
    omega
  | succ fuel ih =>
    intro taskId path st h1 h2 h3 h4 h5
    have hdeps : ∀ path2, path2.Nodup →
        (∀ v ∈ path2, ∃ t, buildTaskMap tasks v = some t) →
        tasks.length + 1 ≤ fuel + path2.length →
        ∀ ds st2,
        st2.visiting = path2 →
        (∀ d ∈ ds, List.Chain' (DepEdge (buildTaskMap tasks)) (path2 ++ [d])) →
        (cvFold (fun d s => cvVisit (buildTaskMap tasks) fuel d path2 s) ds st2).visiting =
          st2.visiting ∧
        ∃ newE,
          (cvFold (fun d s => cvVisit (buildTaskMap tasks) fuel d path2 s) ds st2).errors =
            st2.errors ++ newE ∧
          ∀ e ∈ newE, GoodCycleError (buildTaskMap tasks) e := by
      intro path2 g2 g4 g5 ds
      induction ds with
      | nil =>
        intro st2 g1 g3
        rw [cvFold]
        exact ⟨rfl, [], by simp, by simp⟩
      | cons d ds2 ihd =>
        intro st2 g1 g3
        rcases ih d path2 st2 g1 g2 (g3 d (by simp)) g4 g5 with ⟨hv1, newE1, hv2, hv3⟩
        rcases ihd (cvVisit (buildTaskMap tasks) fuel d path2 st2)
            (by rw [hv1, g1]) (fun d2 hd2 => g3 d2 (by simp [hd2])) with
          ⟨hr1, newE2, hr2, hr3⟩
        rw [cvFold]
        refine ⟨by rw [hr1, hv1], newE1 ++ newE2, ?_, ?_⟩
        · rw [hr2, hv2, List.append_assoc]
        · intro e he
          rcases List.mem_append.mp he with h | h
          · exact hv3 e h
          · exact hr3 e h
    by_cases hvst : taskId ∈ st.visited
    · rw [cvVisit, if_pos hvst]
      exact ⟨rfl, [], by simp, by simp⟩
    · by_cases hvg : taskId ∈ st.visiting
      · rw [cvVisit, if_neg hvst, if_pos hvg]
        refine ⟨rfl, [renderCycle ((path.drop (path.indexOf taskId)) ++ [taskId])], rfl, ?_⟩
        intro e he
        have he2 := List.mem_singleton.mp he
        subst he2
        have hmem : taskId ∈ path := h1 ▸ hvg
        rcases drop_indexOf_cons hmem with ⟨hd, hlt⟩
        refine ⟨taskId, path.drop (path.indexOf taskId + 1), ?_, ?_, ?_⟩
        · rw [hd]
          simp
        · have hsuffix : (path.drop (path.indexOf taskId)) ++ [taskId] =
              (path ++ [taskId]).drop (path.indexOf taskId) := by
            rw [List.drop_append_eq_append_drop]
            have h8 : path.indexOf taskId - path.length = 0 := by omega
            rw [h8]
            simp
          have hch : List.Chain' (DepEdge (buildTaskMap tasks))
              ((path.drop (path.indexOf taskId)) ++ [taskId]) := by
            rw [hsuffix]
            exact h3.suffix (List.drop_suffix _ _)
          rw [hd] at hch
          simpa using hch
        · have hnd : (path.drop (path.indexOf taskId)).Nodup :=
            h2.sublist (List.drop_sublist _ _)
          rw [hd] at hnd
          exact (List.nodup_cons.mp hnd).1
      · rcases htask : buildTaskMap tasks taskId with _ | task
        · rw [cvVisit, if_neg hvst, if_neg hvg, htask]
          refine ⟨?_, [], by simp, by simp⟩
          show (st.visiting ++ [taskId]).erase taskId = st.visiting
          exact erase_append_singleton hvg
        · rw [cvVisit, if_neg hvst, if_neg hvg, htask]
          have hcall := hdeps (path ++ [taskId])
              (List.nodup_append.mpr ⟨h2, List.nodup_singleton _, by
                intro a ha hb
                have hb2 := List.mem_singleton.mp hb
                subst hb2
                exact hvg (h1 ▸ ha)⟩)
              (by
                intro v hv
                rcases List.mem_append.mp hv with h | h
                · exact h4 v h
                · have h9 := List.mem_singleton.mp h
                  subst h9
                  exact ⟨task, htask⟩)
              (by simp only [List.length_append, List.length_singleton]; omega)
              task.dependencies
              { st with visiting := st.visiting ++ [taskId] }
              (by simp [h1])
              (fun d hd => chain'_snoc h3 (by simp only [DepEdge, htask]; exact hd))
          rcases hcall with ⟨hc1, newE, hc2, hc3⟩
          refine ⟨?_, newE, hc2, hc3⟩
          show ((cvFold (fun d s => cvVisit (buildTaskMap tasks) fuel d (path ++ [taskId]) s)
              task.dependencies
              { st with visiting := st.visiting ++ [taskId] }).visiting).erase taskId =
            st.visiting
          rw [hc1]
          show (st.visiting ++ [taskId]).erase taskId = st.visiting
          exact erase_append_singleton hvg

theorem cvRun_good (tasks : List TaskMasterTask) :
    ∀ ts st, st.visiting = [] →
      (cvRun (buildTaskMap tasks) (tasks.length + 1) ts st).visiting = [] ∧
      ∃ newE,
        (cvRun (buildTaskMap tasks) (tasks.length + 1) ts st).errors = st.errors ++ newE ∧
        ∀ e ∈ newE, GoodCycleError (buildTaskMap tasks) e := by
  intro ts
  induction ts with
  | nil =>
    intro st h
    rw [cvRun]
    exact ⟨h, [], by simp, by simp⟩
  | cons t ts ih =>
    intro st h
    rw [cvRun]
    by_cases hv : t.id ∈ st.visited
    · rw [if_pos hv]
      exact ih st h
    · rw [if_neg hv]
      rcases cvVisit_good tasks (tasks.length + 1) t.id [] st h List.nodup_nil
          (by simp) (by simp) (by simp) with ⟨hv1, newE1, hv2, hv3⟩
      rcases ih (cvVisit (buildTaskMap tasks) (tasks.length + 1) t.id [] st)
          (by rw [hv1, h]) with ⟨hr1, newE2, hr2, hr3⟩
      refine ⟨hr1, newE1 ++ newE2, ?_, ?_⟩
      · rw [hr2, hv2, List.append_assoc]
      · intro e he
        rcases List.mem_append.mp he with h2 | h2
        · exact hv3 e h2
        · exact hr3 e h2

/-- C9: every error `validateCircularDependencies` records renders the
slice of the traversal stack from the first occurrence of the repeated
node through the repeated node inclusive: it starts and ends at that
node, consecutive entries are dependency edges in traversal order, and
the node does not recur in the interior (`GoodCycleError`); in
particular, a task whose dependency list includes its own id is recorded
as the one-element cycle `1 → 1`. -/
theorem validateCircular_cycle_slices :
    (∀ tasks, ∀ e ∈ (validateCircularDependencies tasks).errors,
      GoodCycleError (buildTaskMap tasks) e) ∧
    validateCircularDependencies [mkTask 1 [1]] =
      { valid := false, errors := [renderCycle [1, 1]] } := by
  constructor
  · intro tasks e he
    rcases cvRun_good tasks tasks ⟨[], [], []⟩ rfl with ⟨h1, newE, h2, h3⟩
    simp only [validateCircularDependencies] at he
    rw [h2] at he
    simp only [List.nil_append] at he
    exact h3 e he
  · rfl

/-- Witness for C9 at the self-dependent task 1. -/
theorem validateCircular_cycle_slices_witness :
    GoodCycleError (buildTaskMap [mkTask 1 [1]]) (renderCycle [1, 1]) :=
  validateCircular_cycle_slices.1 [mkTask 1 [1]] (renderCycle [1, 1])
    (by rw [validateCircular_cycle_slices.2]; exact List.mem_singleton_self _)

end Tm2bd

namespace Tm2bd

/-! The cycle validator reports nothing when the existing-id subgraph is
acyclic, missing dependency ids included. -/

theorem cvVisit_norank (tasks : List TaskMasterTask) (r : Int → Nat)
    (hr : ∀ t ∈ tasks, ∀ d ∈ t.dependencies, d ∈ taskIds tasks → r d < r t.id) :
    ∀ fuel taskId path st,
      st.visiting = path →
      path.Nodup →
      (∀ v ∈ path, ∃ t, buildTaskMap tasks v = some t) →
      (taskId ∈ taskIds tasks → ∀ v ∈ path, r taskId < r v) →
      tasks.length + 1 ≤ fuel + path.length →
      (cvVisit (buildTaskMap tasks) fuel taskId path st).visiting = st.visiting ∧
      (cvVisit (buildTaskMap tasks) fuel taskId path st).errors = st.errors := by
  intro fuel
  induction fuel with
  | zero =>
    intro taskId path st h1 h2 h4 hrd h5
    exfalso
    have hsub : path ⊆ taskIds tasks := by
      intro v hv
      rcases h4 v hv with ⟨t, ht⟩
      exact buildTaskMap_some_id_mem ht
    have h6 := nodup_subset_length h2 hsub
    have h7 : (taskIds tasks).length = tasks.length := by simp [taskIds]
    omega
  | succ fuel ih =>
    intro taskId path st h1 h2 h4 hrd h5
    have hfold : ∀ path2, path2.Nodup →
        (∀ v ∈ path2, ∃ t, buildTaskMap tasks v = some t) →
        tasks.length + 1 ≤ fuel + path2.length →
        ∀ ds st2,
        st2.visiting = path2 →
        (∀ d ∈ ds, d ∈ taskIds tasks → ∀ v ∈ path2, r d < r v) →
        (cvFold (fun d s => cvVisit (buildTaskMap tasks) fuel d path2 s) ds st2).visiting =
          st2.visiting ∧
        (cvFold (fun d s => cvVisit (buildTaskMap tasks) fuel d path2 s) ds st2).errors =
          st2.errors := by
      intro path2 g2 g4 g5 ds
      induction ds with
      | nil =>
        intro st2 g1 g3
        rw [cvFold]
        exact ⟨rfl, rfl⟩
      | cons d ds2 ihd =>
        intro st2 g1 g3
        rcases ih d path2 st2 g1 g2 g4 (g3 d (by simp)) g5 with ⟨hv1, hv2⟩
        rcases ihd (cvVisit (buildTaskMap tasks) fuel d path2 st2)
            (by rw [hv1, g1]) (fun d2 hd2 => g3 d2 (by simp [hd2])) with ⟨hr1, hr2⟩
        rw [cvFold]
        exact ⟨by rw [hr1, hv1], by rw [hr2, hv2]⟩
    by_cases hvst : taskId ∈ st.visited
    · rw [cvVisit, if_pos hvst]
      exact ⟨rfl, rfl⟩
    · by_cases hvg : taskId ∈ st.visiting
      · exfalso
        have hmem : taskId ∈ path := h1 ▸ hvg
        rcases h4 taskId hmem with ⟨t, ht⟩
        exact lt_irrefl (r taskId) (hrd (buildTaskMap_some_id_mem ht) taskId hmem)
      · rcases htask : buildTaskMap tasks taskId with _ | task
        · rw [cvVisit, if_neg hvst, if_neg hvg, htask]
          refine ⟨?_, rfl⟩
          show (st.visiting ++ [taskId]).erase taskId = st.visiting
          exact erase_append_singleton hvg
        · rw [cvVisit, if_neg hvst, if_neg hvg, htask]
          have htid : taskId ∈ taskIds tasks := buildTaskMap_some_id_mem htask
          rcases buildTaskMap_some_mem htask with ⟨htm, htid2⟩
          have hcall := hfold (path ++ [taskId])
              (List.nodup_append.mpr ⟨h2, List.nodup_singleton _, by
                intro a ha hb
                have hb2 := List.mem_singleton.mp hb
                subst hb2
                exact hvg (h1 ▸ ha)⟩)
              (by
                intro v hv
                rcases List.mem_append.mp hv with h | h
                · exact h4 v h
                · have h9 := List.mem_singleton.mp h
                  subst h9
                  exact ⟨task, htask⟩)
              (by simp only [List.length_append, List.length_singleton]; omega)
              task.dependencies
              { st with visiting := st.visiting ++ [taskId] }
              (by simp [h1])
              (by
                intro d hd hdid v hv
                have hdlt : r d < r taskId := by
                  have := hr task htm d hd hdid
                  rwa [htid2] at this
                rcases List.mem_append.mp hv with h | h
                · exact hdlt.trans (hrd htid v h)
                · have h9 := List.mem_singleton.mp h
                  subst h9
                  exact hdlt)
          rcases hcall with ⟨hc1, hc2⟩
          refine ⟨?_, hc2⟩
          show ((cvFold (fun d s => cvVisit (buildTaskMap tasks) fuel d (path ++ [taskId]) s)
              task.dependencies
              { st with visiting := st.visiting ++ [taskId] }).visiting).erase taskId =
            st.visiting
          rw [hc1]
          show (st.visiting ++ [taskId]).erase taskId = st.visiting
          exact erase_append_singleton hvg

theorem cvRun_norank (tasks : List TaskMasterTask) (r : Int → Nat)
    (hr : ∀ t ∈ tasks, ∀ d ∈ t.dependencies, d ∈ taskIds tasks → r d < r t.id) :
    ∀ ts st, st.visiting = [] →
      (cvRun (buildTaskMap tasks) (tasks.length + 1) ts st).errors = st.errors := by
  intro ts
  induction ts with
  | nil =>
    intro st h
    rw [cvRun]
  | cons t ts ih =>
    intro st h
    rw [cvRun]
    by_cases hv : t.id ∈ st.visited
    · rw [if_pos hv]
      exact ih st h
    · rw [if_neg hv]
      rcases cvVisit_norank tasks r hr (tasks.length + 1) t.id [] st h List.nodup_nil
          (by simp) (by simp) (by simp) with ⟨hv1, hv2⟩
      rw [ih (cvVisit (buildTaskMap tasks) (tasks.length + 1) t.id [] st)
          (by rw [hv1, h]), hv2]

/-- C10: when the tasks form no cycle among the ids that do exist
(witnessed by a rank strictly decreasing along edges whose target id is
present), `validateCircularDependencies` returns `valid = true` with no
errors, even when some dependency ids are absent from the task set: an
absent id is traversed as a node with no dependencies and produces no
error. -/
theorem validateCircular_ignores_missing (tasks : List TaskMasterTask)
    (h : ∃ r : Int → Nat, ∀ t ∈ tasks, ∀ d ∈ t.dependencies,
      d ∈ taskIds tasks → r d < r t.id) :
    validateCircularDependencies tasks = { valid := true, errors := [] } := by
  rcases h with ⟨r, hr⟩
  have h2 := cvRun_norank tasks r hr tasks ⟨[], [], []⟩ rfl
  simp only [validateCircularDependencies]
  rw [h2]
  rfl

/-- Witness for C10 at a task depending on the absent id 99. -/
theorem validateCircular_ignores_missing_witness :
    validateCircularDependencies [mkTask 1 [99]] = { valid := true, errors := [] } :=
  validateCircular_ignores_missing [mkTask 1 [99]] ⟨fun _ => 0, by decide⟩

end Tm2bd
namespace Tm2bd

/-! List, lookup and string helper lemmas for the sort development. -/

theorem lookup_cons_eq (i a b : Int) (l : List (Int × Int)) :
    List.lookup i ((a, b) :: l) = if a = i then some b else List.lookup i l := by
  by_cases h : i = a
  · subst h
    simp [List.lookup]
  · simp [List.lookup, beq_false_of_ne h, Ne.symm h]

theorem lookup_mem_keys :
    ∀ (l : List (Int × Int)) (i : Int), i ∈ l.map Prod.fst →
      ∃ k, List.lookup i l = some k := by
  intro l
  induction l with
  | nil => intro i h; simp at h
  | cons p l ih =>
    intro i h
    rcases p with ⟨a, b⟩
    rw [lookup_cons_eq]
    by_cases ha : a = i
    · exact ⟨b, if_pos ha⟩
    · rw [if_neg ha]
      apply ih
      simp only [List.map_cons, List.mem_cons] at h
      rcases h with h2 | h2
      · exact absurd h2.symm ha
      · exact h2

theorem lookup_keys_mem :
    ∀ (l : List (Int × Int)) (i k : Int), List.lookup i l = some k →
      i ∈ l.map Prod.fst := by
  intro l
  induction l with
  | nil => intro i k h; simp [List.lookup] at h
  | cons p l ih =>
    intro i k h
    rcases p with ⟨a, b⟩
    rw [lookup_cons_eq] at h
    by_cases ha : a = i
    · simp [ha]
    · rw [if_neg ha] at h
      simp only [List.map_cons, List.mem_cons]
      exact Or.inr (ih i k h)

theorem foldl_max_congr (f g : Int → Int) :
    ∀ (l : List Int) (a : Int), (∀ d ∈ l, f d = g d) →
      l.foldl (fun x d => max x (f d)) a = l.foldl (fun x d => max x (g d)) a := by
  intro l
  induction l with
  | nil => intro a _; rfl
  | cons d ds ih =>
    intro a h
    simp only [List.foldl_cons]
    rw [h d (by simp)]
    exact ih _ (fun d2 hd2 => h d2 (by simp [hd2]))

theorem foldl_max_init_le (f : Int → Int) :
    ∀ (l : List Int) (a : Int), a ≤ l.foldl (fun x d => max x (f d)) a := by
  intro l
  induction l with
  | nil => intro a; exact le_refl a
  | cons d ds ih =>
    intro a
    simp only [List.foldl_cons]
    exact le_trans (le_max_left a (f d)) (ih (max a (f d)))

theorem foldl_max_mem_le (f : Int → Int) :
    ∀ (l : List Int) (a d : Int), d ∈ l → f d ≤ l.foldl (fun x d => max x (f d)) a := by
  intro l
  induction l with
  | nil => intro a d h; cases h
  | cons d0 ds ih =>
    intro a d h
    simp only [List.foldl_cons]
    rcases List.mem_cons.mp h with h2 | h2
    · subst h2
      exact le_trans (le_max_right a (f d)) (foldl_max_init_le f ds _)
    · exact ih _ d h2

theorem foldl_max_cases (f : Int → Int) :
    ∀ (l : List Int) (a : Int), l.foldl (fun x d => max x (f d)) a = a ∨
      ∃ d ∈ l, l.foldl (fun x d => max x (f d)) a = f d := by
  intro l
  induction l with
  | nil => intro a; exact Or.inl rfl
  | cons d0 ds ih =>
    intro a
    simp only [List.foldl_cons]
    rcases ih (max a (f d0)) with h | ⟨d, hd, hd2⟩
    · rw [h]
      rcases max_choice a (f d0) with h2 | h2
      · exact Or.inl h2
      · exact Or.inr ⟨d0, by simp, h2⟩
    · exact Or.inr ⟨d, by simp [hd], hd2⟩

theorem data_head_append (p x : String) (hp : p.data ≠ []) :
    (p ++ x).data.head? = p.data.head? := by
  rw [String.data_append]
  exact List.head?_append_of_ne_nil p.data hp

theorem cycleMsg_head (i : Int) : (cycleMsg i).data.head? = some 'C' := by
  have h : cycleMsg i =
      "Circular dependency detected involving task " ++ toString i := rfl
  rw [h, data_head_append _ _ (by decide)]
  rfl

theorem notFoundMsg_head (j : Int) : (notFoundMsg j).data.head? = some 'T' := by
  rw [show notFoundMsg j = "Task " ++ (toString j ++ " referenced but not found") from rfl,
    data_head_append _ _ (by decide)]
  rfl

theorem cycleMsg_ne_notFoundMsg (i j : Int) : cycleMsg i ≠ notFoundMsg j := by
  intro h
  have h2 := congrArg (fun s => s.data.head?) h
  simp only [cycleMsg_head, notFoundMsg_head] at h2
  cases h2

theorem cycleMsg_ne_fuel (i : Int) : cycleMsg i ≠ tsFuelMsg := by
  intro h
  have h2 := congrArg (fun s => s.data.head?) h
  simp only [cycleMsg_head] at h2
  cases h2

theorem cycleMsg_ne_panic (i : Int) : cycleMsg i ≠ tierPanicMsg := by
  intro h
  have h2 := congrArg (fun s => s.data.head?) h
  simp only [cycleMsg_head] at h2
  cases h2

theorem notFoundMsg_ne_fuel (j : Int) : notFoundMsg j ≠ tsFuelMsg := by
  intro h
  have h2 := congrArg (fun s => s.data.head?) h
  simp only [notFoundMsg_head] at h2
  cases h2

theorem notFoundMsg_ne_panic (j : Int) : notFoundMsg j ≠ tierPanicMsg := by
  intro h
  have h2 := congrArg (fun s => s.data.head?) h
  simp only [notFoundMsg_head] at h2
  cases h2

end Tm2bd

namespace Tm2bd

/-! Preservation: every successful sort `visit` call maintains `TsInv`
and satisfies `TsVisitPost`. -/

theorem tsInv_set_visiting (tasks : List TaskMasterTask) (st : TsState) (v : List Int)
    (h : TsInv tasks st) : TsInv tasks { st with visiting := v } :=
  { sorted_vis := h.sorted_vis, vis_nodup := h.vis_nodup, vis_sub := h.vis_sub,
    map_sorted := h.map_sorted, tier_keys := h.tier_keys, tier_sorted := h.tier_sorted,
    deps_vis := h.deps_vis, rec_tier := h.rec_tier, tier_nonneg := h.tier_nonneg }

theorem tsVisit_pres (tasks : List TaskMasterTask) :
    ∀ fuel taskId st st2 k,
      TsInv tasks st →
      tsVisit (buildTaskMap tasks) fuel taskId st = .ok (st2, k) →
      TsInv tasks st2 ∧ TsVisitPost st st2 taskId k := by
  intro fuel
  induction fuel with
  | zero =>
    intro taskId st st2 k hInv h
    rw [tsVisit] at h
    simp at h
  | succ fuel ih =>
    intro taskId st st2 k hInv h
    have hfold : ∀ ds st0 acc stF m,
        TsInv tasks st0 →
        tsFold (fun d s => tsVisit (buildTaskMap tasks) fuel d s) ds st0 acc =
          .ok (stF, m) →
        TsInv tasks stF ∧ TsFoldPost st0 stF ds acc m := by
      intro ds
      induction ds with
      | nil =>
        intro st0 acc stF m hI hf
        rw [tsFold] at hf
        injection hf with hf2
        injection hf2 with hfa hfb
        subst hfa
        subst hfb
        refine ⟨hI, ?_⟩
        exact { visiting_eq := rfl, visited_ext := ⟨[], (by simp), (by simp)⟩,
                sorted_ext := ⟨[], (by simp)⟩, tier_mono := fun i k0 h0 => h0,
                deps_visited := (by simp), m_char := rfl, m_ge := le_refl _ }
      | cons d ds2 ihd =>
        intro st0 acc stF m hI hf
        rw [tsFold] at hf
        rcases hv : tsVisit (buildTaskMap tasks) fuel d st0 with e | p
        · rw [hv] at hf
          simp at hf
        · rcases p with ⟨st1, k1⟩
          rw [hv] at hf
          simp only [] at hf
          rcases ih d st0 st1 k1 hI hv with ⟨hI1, hP1⟩
          rcases ihd st1 (max acc k1) stF m hI1 hf with ⟨hI2, hP2⟩
          refine ⟨hI2, ?_⟩
          rcases hP1.visited_ext with ⟨e1, he1, he1n⟩
          rcases hP2.visited_ext with ⟨e2, he2, he2n⟩
          rcases hP1.sorted_ext with ⟨s1, hs1⟩
          rcases hP2.sorted_ext with ⟨s2, hs2⟩
          have hk1 : List.lookup d stF.tierMap = some k1 :=
            hP2.tier_mono d k1 hP1.tier_val
          refine { visiting_eq := hP2.visiting_eq.trans hP1.visiting_eq,
                   visited_ext := ⟨e1 ++ e2, (by rw [he2, he1, List.append_assoc]), ?_⟩,
                   sorted_ext := ⟨s1 ++ s2, (by rw [hs2, hs1, List.append_assoc])⟩,
                   tier_mono := fun i k0 h0 => hP2.tier_mono i k0 (hP1.tier_mono i k0 h0),
                   deps_visited := ?_, m_char := ?_, m_ge := ?_ }
          · intro x hx
            rcases List.mem_append.mp hx with h2 | h2
            · exact he1n x h2
            · have h3 := he2n x h2
              rwa [hP1.visiting_eq] at h3
          · intro d2 hd2
            rcases List.mem_cons.mp hd2 with h2 | h2
            · subst h2
              rw [he2]
              exact List.mem_append_left _ hP1.mem_visited
            · exact hP2.deps_visited d2 h2
          · simp only [List.foldl_cons]
            rw [hk1]
            simpa using hP2.m_char
          · exact le_trans (le_max_left acc k1) hP2.m_ge
    rw [tsVisit] at h
    by_cases hvst : taskId ∈ st.visited
    · rw [if_pos hvst] at h
      rcases lookup_mem_keys st.tierMap taskId
          (by rw [hInv.tier_keys]; simpa using hvst) with ⟨k0, hk0⟩
      rw [hk0] at h
      simp only [] at h
      injection h with h2
      injection h2 with ha hb
      subst ha
      subst hb
      refine ⟨hInv, ?_⟩
      exact { visiting_eq := rfl, visited_ext := ⟨[], (by simp), (by simp)⟩,
              sorted_ext := ⟨[], (by simp)⟩, tier_mono := fun _ _ h0 => h0,
              mem_visited := hvst, tier_val := hk0 }
    · rw [if_neg hvst] at h
      by_cases hvg : taskId ∈ st.visiting
      · rw [if_pos hvg] at h
        simp at h
      · rw [if_neg hvg] at h
        rcases htask : buildTaskMap tasks taskId with _ | task
        · rw [htask] at h
          simp at h
        · rw [htask] at h
          simp only [] at h
          rcases hf : tsFold (fun d s => tsVisit (buildTaskMap tasks) fuel d s)
              task.dependencies { st with visiting := st.visiting ++ [taskId] } (-1) with
            e | p
          · rw [hf] at h
            simp at h
          · rcases p with ⟨stD, mD⟩
            rw [hf] at h
            simp only [] at h
            injection h with h2
            injection h2 with ha hb
            subst hb
            subst ha
            have htid : task.id = taskId := (buildTaskMap_some_mem htask).2
            have hids : taskId ∈ taskIds tasks := buildTaskMap_some_id_mem htask
            rcases hfold task.dependencies _ (-1) stD mD
                (tsInv_set_visiting tasks st _ hInv) hf with ⟨hID, hPD⟩
            rcases hPD.visited_ext with ⟨extD, hextD, hextDn⟩
            rcases hPD.sorted_ext with ⟨sextD, hsextD⟩
            have hDvisited : stD.visited = st.visited ++ extD := hextD
            have hTaskNotInD : taskId ∉ stD.visited := by
              rw [hDvisited]
              intro hmem
              rcases List.mem_append.mp hmem with h2 | h2
              · exact hvst h2
              · exact hextDn taskId h2 (by simp)
            have hDvisiting : stD.visiting = st.visiting ++ [taskId] := hPD.visiting_eq
            have hmemD : ∀ i ∈ stD.visited, i ≠ taskId := by
              intro i hi hEq
              exact hTaskNotInD (hEq ▸ hi)
            have hsortedD_mem : ∀ p ∈ stD.sorted, p.1.id ∈ stD.visited := by
              intro p hp
              rw [← hID.sorted_vis]
              exact List.mem_map_of_mem (fun q => q.1.id) hp
            constructor
            · refine { sorted_vis := ?_, vis_nodup := ?_, vis_sub := ?_,
                       map_sorted := ?_, tier_keys := ?_, tier_sorted := ?_,
                       deps_vis := ?_, rec_tier := ?_, tier_nonneg := ?_ }
              · show (stD.sorted ++ [(task, mD + 1)]).map (fun p => p.1.id) =
                  stD.visited ++ [taskId]
                rw [List.map_append, hID.sorted_vis]
                simp [htid]
              · show (stD.visited ++ [taskId]).Nodup
                refine List.nodup_append.mpr ⟨hID.vis_nodup, List.nodup_singleton _, ?_⟩
                intro x hx hx2
                have hx3 := List.mem_singleton.mp hx2
                subst hx3
                exact hTaskNotInD hx
              · intro i hi
                rcases List.mem_append.mp hi with h2 | h2
                · exact hID.vis_sub i h2
                · have h3 := List.mem_singleton.mp h2
                  subst h3
                  exact hids
              · intro p hp
                rcases List.mem_append.mp hp with h2 | h2
                · exact hID.map_sorted p h2
                · have h3 := List.mem_singleton.mp h2
                  subst h3
                  show buildTaskMap tasks task.id = some task
                  rw [htid]
                  exact htask
              · show ((taskId, mD + 1) :: stD.tierMap).map Prod.fst =
                  (stD.visited ++ [taskId]).reverse
                simp [hID.tier_keys]
              · intro p hp
                rcases List.mem_append.mp hp with h2 | h2
                · rw [lookup_cons_eq,
                    if_neg (fun hEq => (hmemD p.1.id (hsortedD_mem p h2) hEq.symm))]
                  exact hID.tier_sorted p h2
                · have h3 := List.mem_singleton.mp h2
                  subst h3
                  show List.lookup task.id ((taskId, mD + 1) :: stD.tierMap) = some (mD + 1)
                  rw [lookup_cons_eq, if_pos htid.symm]
              · intro p hp d hd
                rcases List.mem_append.mp hp with h2 | h2
                · exact List.mem_append_left _ (hID.deps_vis p h2 d hd)
                · have h3 := List.mem_singleton.mp h2
                  subst h3
                  exact List.mem_append_left _ (hPD.deps_visited d hd)
              · intro p hp
                rcases List.mem_append.mp hp with h2 | h2
                · have hcongr : ∀ d ∈ p.1.dependencies,
                      (List.lookup d ((taskId, mD + 1) :: stD.tierMap)).getD 0 =
                        (List.lookup d stD.tierMap).getD 0 := by
                    intro d hd
                    rw [lookup_cons_eq,
                      if_neg (fun hEq =>
                        (hmemD d (hID.deps_vis p h2 d hd) hEq.symm))]
                  rw [foldl_max_congr _ _ _ _ hcongr]
                  exact hID.rec_tier p h2
                · have h3 := List.mem_singleton.mp h2
                  subst h3
                  show mD + 1 = (task.dependencies.foldl
                    (fun a d => max a
                      ((List.lookup d ((taskId, mD + 1) :: stD.tierMap)).getD 0)) (-1)) + 1
                  have hcongr : ∀ d ∈ task.dependencies,
                      (List.lookup d ((taskId, mD + 1) :: stD.tierMap)).getD 0 =
                        (List.lookup d stD.tierMap).getD 0 := by
                    intro d hd
                    rw [lookup_cons_eq,
                      if_neg (fun hEq =>
                        (hmemD d (hPD.deps_visited d hd) hEq.symm))]
                  rw [foldl_max_congr _ _ _ _ hcongr]
                  rw [← hPD.m_char]
              · intro p hp
                rcases List.mem_append.mp hp with h2 | h2
                · exact hID.tier_nonneg p h2
                · have h3 := List.mem_singleton.mp h2
                  subst h3
                  have h4 : (-1 : Int) ≤ mD := hPD.m_ge
                  omega
            · refine { visiting_eq := ?_, visited_ext := ?_, sorted_ext := ?_,
                       tier_mono := ?_, mem_visited := ?_, tier_val := ?_ }
              · show (stD.visiting).erase taskId = st.visiting
                rw [hDvisiting]
                exact erase_append_singleton hvg
              · refine ⟨extD ++ [taskId], ?_, ?_⟩
                · show stD.visited ++ [taskId] = st.visited ++ (extD ++ [taskId])
                  rw [hDvisited, List.append_assoc]
                · intro x hx
                  rcases List.mem_append.mp hx with h2 | h2
                  · intro h3
                    exact hextDn x h2 (List.mem_append_left _ h3)
                  · have h3 := List.mem_singleton.mp h2
                    subst h3
                    exact hvg
              · refine ⟨sextD ++ [(task, mD + 1)], ?_⟩
                show stD.sorted ++ [(task, mD + 1)] = st.sorted ++ (sextD ++ [(task, mD + 1)])
                rw [hsextD, List.append_assoc]
              · intro i k0 h0
                have h1 : List.lookup i stD.tierMap = some k0 := hPD.tier_mono i k0 h0
                rw [lookup_cons_eq, if_neg]
                · exact h1
                · intro hEq
                  have h2 : i ∈ stD.tierMap.map Prod.fst := lookup_keys_mem _ i k0 h1
                  rw [hID.tier_keys] at h2
                  have h3 : i ∈ stD.visited := List.mem_reverse.mp h2
                  exact hmemD i h3 hEq.symm
              · exact List.mem_append_right _ (by simp)
              · show List.lookup taskId ((taskId, mD + 1) :: stD.tierMap) = some (mD + 1)
                rw [lookup_cons_eq, if_pos rfl]

end Tm2bd

namespace Tm2bd

/-! Run-level preservation and progress of the sort walk. -/

theorem tsInv_init (tasks : List TaskMasterTask) : TsInv tasks ⟨[], [], [], []⟩ :=
  { sorted_vis := rfl, vis_nodup := List.nodup_nil, vis_sub := (by simp),
    map_sorted := (by simp), tier_keys := rfl, tier_sorted := (by simp),
    deps_vis := (by simp), rec_tier := (by simp), tier_nonneg := (by simp) }

theorem buildTaskMap_self {tasks : List TaskMasterTask} (hU : UniqueIds tasks)
    {t : TaskMasterTask} (ht : t ∈ tasks) : buildTaskMap tasks t.id = some t := by
  rcases he : buildTaskMap tasks t.id with _ | t2
  · exact absurd (List.mem_map_of_mem (fun q => q.id) ht)
      (buildTaskMap_none_not_mem he)
  · rcases buildTaskMap_some_mem he with ⟨hm, hid⟩
    have h2 : t2 = t := List.inj_on_of_nodup_map hU hm ht hid
    rw [h2]

theorem tsRun_pres (tasks : List TaskMasterTask) (fuel : Nat) :
    ∀ ts st stF, TsInv tasks st →
      tsRun (buildTaskMap tasks) fuel ts st = .ok stF →
      TsInv tasks stF ∧ stF.visiting = st.visiting ∧
      (∃ ext, stF.visited = st.visited ++ ext) ∧
      (∃ ext, stF.sorted = st.sorted ++ ext) ∧
      (∀ i k0, List.lookup i st.tierMap = some k0 → List.lookup i stF.tierMap = some k0) ∧
      (∀ t ∈ ts, t.id ∈ stF.visited) := by
  intro ts
  induction ts with
  | nil =>
    intro st stF hInv h
    rw [tsRun] at h
    injection h with h2
    subst h2
    exact ⟨hInv, rfl, ⟨[], (by simp)⟩, ⟨[], (by simp)⟩, fun _ _ h0 => h0, (by simp)⟩
  | cons t ts ih =>
    intro st stF hInv h
    rw [tsRun] at h
    by_cases hv : t.id ∈ st.visited
    · rw [if_pos hv] at h
      rcases ih st stF hInv h with ⟨hI, h1, ⟨e1, he1⟩, ⟨s1, hs1⟩, hmono, hall⟩
      refine ⟨hI, h1, ⟨e1, he1⟩, ⟨s1, hs1⟩, hmono, ?_⟩
      intro t2 ht2
      rcases List.mem_cons.mp ht2 with h2 | h2
      · subst h2
        rw [he1]
        exact List.mem_append_left _ hv
      · exact hall t2 h2
    · rw [if_neg hv] at h
      rcases hvv : tsVisit (buildTaskMap tasks) fuel t.id st with e | p
      · rw [hvv] at h
        simp at h
      · rcases p with ⟨st1, k⟩
        rw [hvv] at h
        simp only [] at h
        rcases tsVisit_pres tasks fuel t.id st st1 k hInv hvv with ⟨hI1, hP1⟩
        rcases ih st1 stF hI1 h with ⟨hI, h1, ⟨e1, he1⟩, ⟨s1, hs1⟩, hmono, hall⟩
        rcases hP1.visited_ext with ⟨e0, he0, _⟩
        rcases hP1.sorted_ext with ⟨s0, hs0⟩
        refine ⟨hI, h1.trans hP1.visiting_eq, ⟨e0 ++ e1, ?_⟩, ⟨s0 ++ s1, ?_⟩, ?_, ?_⟩
        · rw [he1, he0, List.append_assoc]
        · rw [hs1, hs0, List.append_assoc]
        · intro i k0 h0
          exact hmono i k0 (hP1.tier_mono i k0 h0)
        · intro t2 ht2
          rcases List.mem_cons.mp ht2 with h2 | h2
          · subst h2
            rw [he1]
            exact List.mem_append_left _ hP1.mem_visited
          · exact hall t2 h2

theorem tsVisit_progress (tasks : List TaskMasterTask) (r : Int → Nat)
    (hr : ∀ t ∈ tasks, ∀ d ∈ t.dependencies, d ∈ taskIds tasks → r d < r t.id) :
    ∀ fuel taskId st,
      TsInv tasks st →
      taskId ∈ taskIds tasks →
      st.visiting.Nodup →
      (∀ v ∈ st.visiting, v ∈ taskIds tasks) →
      (∀ v ∈ st.visiting, r taskId < r v) →
      tasks.length + 1 ≤ fuel + st.visiting.length →
      (∃ st2 k, tsVisit (buildTaskMap tasks) fuel taskId st = .ok (st2, k)) ∨
      (∃ j, j ∉ taskIds tasks ∧ (∃ t, t ∈ tasks ∧ j ∈ t.dependencies) ∧
        tsVisit (buildTaskMap tasks) fuel taskId st = .error (notFoundMsg j)) := by
  intro fuel
  induction fuel with
  | zero =>
    intro taskId st hInv hid hnd hsub hdom hsum
    exfalso
    have h6 := nodup_subset_length hnd hsub
    have h7 : (taskIds tasks).length = tasks.length := by simp [taskIds]
    omega
  | succ fuel ih =>
    intro taskId st hInv hid hnd hsub hdom hsum
    by_cases hvst : taskId ∈ st.visited
    · rcases lookup_mem_keys st.tierMap taskId
          (by rw [hInv.tier_keys]; simpa using hvst) with ⟨k0, hk0⟩
      left
      refine ⟨st, k0, ?_⟩
      rw [tsVisit, if_pos hvst, hk0]
    · by_cases hvg : taskId ∈ st.visiting
      · exact absurd (hdom taskId hvg) (lt_irrefl _)
      · rcases htask : buildTaskMap tasks taskId with _ | task
        · exact absurd hid (buildTaskMap_none_not_mem htask)
        · rcases buildTaskMap_some_mem htask with ⟨htm, htid⟩
          have hfoldp : ∀ ds st0,
              TsInv tasks st0 →
              st0.visiting = st.visiting ++ [taskId] →
              (∀ d ∈ ds, d ∈ task.dependencies) →
              ∀ acc,
              (∃ stF m,
                tsFold (fun d s => tsVisit (buildTaskMap tasks) fuel d s) ds st0 acc =
                  .ok (stF, m)) ∨
              (∃ j, j ∉ taskIds tasks ∧ (∃ t, t ∈ tasks ∧ j ∈ t.dependencies) ∧
                tsFold (fun d s => tsVisit (buildTaskMap tasks) fuel d s) ds st0 acc =
                  .error (notFoundMsg j)) := by
            intro ds
            induction ds with
            | nil =>
              intro st0 hI0 hvis0 hds acc
              left
              exact ⟨st0, acc, by rw [tsFold]⟩
            | cons d ds2 ihd =>
              intro st0 hI0 hvis0 hds acc
              have hvis0nd : st0.visiting.Nodup := by
                rw [hvis0]
                refine List.nodup_append.mpr ⟨hnd, List.nodup_singleton _, ?_⟩
                intro x hx hx2
                have hx3 := List.mem_singleton.mp hx2
                subst hx3
                exact hvg hx
              have hvis0sub : ∀ v ∈ st0.visiting, v ∈ taskIds tasks := by
                rw [hvis0]
                intro v hv
                rcases List.mem_append.mp hv with h2 | h2
                · exact hsub v h2
                · have h3 := List.mem_singleton.mp h2
                  subst h3
                  exact hid
              have hsum0 : tasks.length + 1 ≤ fuel + st0.visiting.length := by
                rw [hvis0]
                simp only [List.length_append, List.length_singleton]
                omega
              by_cases hdid : d ∈ taskIds tasks
              · have hdomd : ∀ v ∈ st0.visiting, r d < r v := by
                  rw [hvis0]
                  intro v hv
                  have hdt : r d < r taskId := by
                    have h5 := hr task htm d (hds d (by simp)) hdid
                    rwa [htid] at h5
                  rcases List.mem_append.mp hv with h2 | h2
                  · exact hdt.trans (hdom v h2)
                  · have h3 := List.mem_singleton.mp h2
                    subst h3
                    exact hdt
                rcases ih d st0 hI0 hdid hvis0nd hvis0sub hdomd hsum0 with
                  ⟨st1, k1, hok⟩ | ⟨j, hj1, hj2, herr⟩
                · rcases tsVisit_pres tasks fuel d st0 st1 k1 hI0 hok with ⟨hI1, hP1⟩
                  rcases ihd st1 hI1 (hP1.visiting_eq.trans hvis0)
                      (fun d2 hd2 => hds d2 (by simp [hd2])) (max acc k1) with
                    ⟨stF, m, hok2⟩ | ⟨j, hj1, hj2, herr2⟩
                  · left
                    refine ⟨stF, m, ?_⟩
                    rw [tsFold, hok]
                    simpa using hok2
                  · right
                    refine ⟨j, hj1, hj2, ?_⟩
                    rw [tsFold, hok]
                    simpa using herr2
                · right
                  refine ⟨j, hj1, hj2, ?_⟩
                  rw [tsFold, herr]
              · -- missing dependency id: the visit on d throws not-found
                have hfuelpos : 1 ≤ fuel := by
                  have h6 := nodup_subset_length hvis0nd hvis0sub
                  have h7 : (taskIds tasks).length = tasks.length := by simp [taskIds]
                  omega
                obtain ⟨fuel2, rfl⟩ : ∃ fuel2, fuel = fuel2 + 1 :=
                  ⟨fuel - 1, by omega⟩
                have hdvst : d ∉ st0.visited := by
                  intro hmem
                  exact hdid (hI0.vis_sub d hmem)
                have hdvg : d ∉ st0.visiting := by
                  intro hmem
                  exact hdid (hvis0sub d hmem)
                have hdmap : buildTaskMap tasks d = none := by
                  rcases he : buildTaskMap tasks d with _ | t2
                  · rfl
                  · exact absurd (buildTaskMap_some_id_mem he) hdid
                have herrd : tsVisit (buildTaskMap tasks) (fuel2 + 1) d st0 =
                    .error (notFoundMsg d) := by
                  rw [tsVisit, if_neg hdvst, if_neg hdvg, hdmap]
                right
                refine ⟨d, hdid, ⟨task, htm, hds d (by simp)⟩, ?_⟩
                rw [tsFold, herrd]
          rcases hfoldp task.dependencies { st with visiting := st.visiting ++ [taskId] }
              (tsInv_set_visiting tasks st _ hInv) (by simp) (fun d hd => hd) (-1) with
            ⟨stF, m, hok⟩ | ⟨j, hj1, hj2, herr⟩
          · left
            refine ⟨{ visited := stF.visited ++ [taskId],
                      visiting := stF.visiting.erase taskId,
                      tierMap := (taskId, m + 1) :: stF.tierMap,
                      sorted := stF.sorted ++ [(task, m + 1)] }, m + 1, ?_⟩
            rw [tsVisit, if_neg hvst, if_neg hvg, htask]
            simp only []
            rw [hok]
          · right
            refine ⟨j, hj1, hj2, ?_⟩
            rw [tsVisit, if_neg hvst, if_neg hvg, htask]
            simp only []
            rw [herr]

end Tm2bd

namespace Tm2bd

/-! From a successful sort run to the properties of its output. -/

theorem tierFn_mem :
    ∀ out : List (TaskMasterTask × Int),
      (out.map (fun p => p.1.id)).Nodup → ∀ p ∈ out, tierFn out p.1.id = p.2 := by
  intro out
  induction out with
  | nil => intro _ p hp; cases hp
  | cons q out ih =>
    intro hnd p hp
    simp only [List.map_cons, List.nodup_cons] at hnd
    rcases List.mem_cons.mp hp with h2 | h2
    · subst h2
      unfold tierFn
      simp [List.find?_cons_of_pos]
    · have hne : (q.1.id == p.1.id) = false := by
        refine beq_false_of_ne ?_
        intro hEq
        exact hnd.1 (hEq ▸ List.mem_map_of_mem (fun p2 => p2.1.id) h2)
      have hrec := ih hnd.2 p h2
      unfold tierFn at hrec ⊢
      rw [List.find?_cons_of_neg _ (by simp [hne])]
      exact hrec

theorem tsRun_progress (tasks : List TaskMasterTask) (r : Int → Nat)
    (hr : ∀ t ∈ tasks, ∀ d ∈ t.dependencies, d ∈ taskIds tasks → r d < r t.id) :
    ∀ ts st, TsInv tasks st → st.visiting = [] → (∀ t ∈ ts, t ∈ tasks) →
      (∃ stF, tsRun (buildTaskMap tasks) (tasks.length + 1) ts st = .ok stF) ∨
      (∃ j, j ∉ taskIds tasks ∧ (∃ t, t ∈ tasks ∧ j ∈ t.dependencies) ∧
        tsRun (buildTaskMap tasks) (tasks.length + 1) ts st = .error (notFoundMsg j)) := by
  intro ts
  induction ts with
  | nil =>
    intro st hInv hvis hts
    left
    exact ⟨st, by rw [tsRun]⟩
  | cons t ts ih =>
    intro st hInv hvis hts
    by_cases hv : t.id ∈ st.visited
    · rcases ih st hInv hvis (fun t2 ht2 => hts t2 (by simp [ht2])) with
        ⟨stF, hF⟩ | ⟨j, h1, h2, herr⟩
      · left
        exact ⟨stF, by rw [tsRun, if_pos hv]; exact hF⟩
      · right
        exact ⟨j, h1, h2, by rw [tsRun, if_pos hv]; exact herr⟩
    · have htmem : t ∈ tasks := hts t (by simp)
      have hid : t.id ∈ taskIds tasks := List.mem_map_of_mem (fun q => q.id) htmem
      rcases tsVisit_progress tasks r hr (tasks.length + 1) t.id st hInv hid
          (by rw [hvis]; exact List.nodup_nil) (by rw [hvis]; simp)
          (by rw [hvis]; simp) (by rw [hvis]; simp) with
        ⟨st1, k, hok⟩ | ⟨j, h1, h2, herr⟩
      · rcases tsVisit_pres tasks (tasks.length + 1) t.id st st1 k hInv hok with ⟨hI1, hP1⟩
        rcases ih st1 hI1 (hP1.visiting_eq.trans hvis)
            (fun t2 ht2 => hts t2 (by simp [ht2])) with
          ⟨stF, hF⟩ | ⟨j, h1, h2, herr⟩
        · left
          refine ⟨stF, ?_⟩
          rw [tsRun, if_neg hv, hok]
          simpa using hF
        · right
          refine ⟨j, h1, h2, ?_⟩
          rw [tsRun, if_neg hv, hok]
          simpa using herr
      · right
        refine ⟨j, h1, h2, ?_⟩
        rw [tsRun, if_neg hv, herr]

theorem topologicalSort_progress (tasks : List TaskMasterTask) (r : Int → Nat)
    (hr : ∀ t ∈ tasks, ∀ d ∈ t.dependencies, d ∈ taskIds tasks → r d < r t.id) :
    (∃ out, topologicalSort tasks = .ok out) ∨
    (∃ j, j ∉ taskIds tasks ∧ (∃ t, t ∈ tasks ∧ j ∈ t.dependencies) ∧
      topologicalSort tasks = .error (notFoundMsg j)) := by
  rcases tsRun_progress tasks r hr tasks ⟨[], [], [], []⟩ (tsInv_init tasks) rfl
      (fun t ht => ht) with ⟨stF, hF⟩ | ⟨j, h1, h2, herr⟩
  · left
    refine ⟨List.insertionSort sortLe stF.sorted, ?_⟩
    unfold topologicalSort
    rw [hF]
  · right
    refine ⟨j, h1, h2, ?_⟩
    unfold topologicalSort
    rw [herr]

theorem topologicalSort_ok_facts (tasks : List TaskMasterTask) (hU : UniqueIds tasks)
    (out : List (TaskMasterTask × Int)) (h : topologicalSort tasks = .ok out) :
    (out.map Prod.fst).Perm tasks ∧
    (out.map (fun p => p.1.id)).Nodup ∧
    List.Sorted sortLe out ∧
    (∀ p ∈ out, 0 ≤ p.2) ∧
    (∀ p ∈ out, p.2 =
      (p.1.dependencies.foldl (fun a d => max a (tierFn out d)) (-1)) + 1) ∧
    (∀ p ∈ out, ∀ d ∈ p.1.dependencies, ∃ q ∈ out, q.1.id = d ∧ tierFn out d = q.2) ∧
    (∀ p ∈ out, ∀ d ∈ p.1.dependencies, ∀ q ∈ out, q.1.id = d → q.2 < p.2) := by
  unfold topologicalSort at h
  rcases hrun : tsRun (buildTaskMap tasks) (tasks.length + 1) tasks ⟨[], [], [], []⟩ with
    e | stF
  · rw [hrun] at h
    simp at h
  · rw [hrun] at h
    simp only [] at h
    injection h with h2
    subst h2
    rcases tsRun_pres tasks (tasks.length + 1) tasks ⟨[], [], [], []⟩ stF
        (tsInv_init tasks) hrun with ⟨hI, _, _, _, _, hall⟩
    set out := List.insertionSort sortLe stF.sorted with hout
    have hperm : out.Perm stF.sorted := List.perm_insertionSort sortLe stF.sorted
    have hmem : ∀ p, p ∈ out ↔ p ∈ stF.sorted := fun p => hperm.mem_iff
    have hsortednd : (stF.sorted.map (fun p => p.1.id)).Nodup := by
      rw [hI.sorted_vis]
      exact hI.vis_nodup
    have houtnd : (out.map (fun p => p.1.id)).Nodup :=
      (hperm.map (fun p => p.1.id)).nodup_iff.mpr hsortednd
    have hvis_pair : ∀ i, i ∈ stF.visited → ∃ q ∈ stF.sorted, q.1.id = i := by
      intro i hi
      rw [← hI.sorted_vis] at hi
      rcases List.mem_map.mp hi with ⟨q, hq, hq2⟩
      exact ⟨q, hq, hq2⟩
    have htier_out : ∀ q ∈ stF.sorted, tierFn out q.1.id = q.2 := by
      intro q hq
      exact tierFn_mem out houtnd q ((hmem q).mpr hq)
    have hlookup_tier : ∀ q ∈ stF.sorted, (List.lookup q.1.id stF.tierMap).getD 0 = q.2 := by
      intro q hq
      rw [hI.tier_sorted q hq]
      rfl
    have hdep_fact : ∀ p ∈ out, ∀ d ∈ p.1.dependencies,
        ∃ q ∈ stF.sorted, q.1.id = d ∧ tierFn out d = q.2 ∧
          (List.lookup d stF.tierMap).getD 0 = q.2 := by
      intro p hp d hd
      have hdvis : d ∈ stF.visited := hI.deps_vis p ((hmem p).mp hp) d hd
      rcases hvis_pair d hdvis with ⟨q, hq, hq2⟩
      refine ⟨q, hq, hq2, ?_, ?_⟩
      · rw [← hq2]
        exact htier_out q hq
      · rw [← hq2]
        exact hlookup_tier q hq
    refine ⟨?_, houtnd, ?_, ?_, ?_, ?_, ?_⟩
    · -- permutation with the input task list
      have hnd1 : (stF.sorted.map Prod.fst).Nodup := by
        have h3 : (stF.sorted.map Prod.fst).map (fun t => t.id) =
            stF.sorted.map (fun p => p.1.id) := by
          rw [List.map_map]
          rfl
        exact List.Nodup.of_map (fun t => t.id) (h3 ▸ hsortednd)
      have hnd2 : tasks.Nodup := List.Nodup.of_map (fun t => t.id)
        (show (tasks.map (fun t => t.id)).Nodup from hU)
      have hiff : ∀ t, t ∈ stF.sorted.map Prod.fst ↔ t ∈ tasks := by
        intro t
        constructor
        · intro ht
          rcases List.mem_map.mp ht with ⟨p, hp, hp2⟩
          subst hp2
          exact (buildTaskMap_some_mem (hI.map_sorted p hp)).1
        · intro ht
          have hid : t.id ∈ stF.visited := hall t ht
          rcases hvis_pair t.id hid with ⟨q, hq, hq2⟩
          have hqt : q.1 = t := by
            have h4 := hI.map_sorted q hq
            rw [hq2] at h4
            rw [buildTaskMap_self hU ht] at h4
            injection h4 with h5
            exact h5.symm
          rw [← hqt]
          exact List.mem_map_of_mem Prod.fst hq
      have hperm2 : (stF.sorted.map Prod.fst).Perm tasks :=
        (List.perm_ext_iff_of_nodup hnd1 hnd2).mpr hiff
      exact (hperm.map Prod.fst).trans hperm2
    · exact List.sorted_insertionSort sortLe stF.sorted
    · intro p hp
      exact hI.tier_nonneg p ((hmem p).mp hp)
    · intro p hp
      have hrec := hI.rec_tier p ((hmem p).mp hp)
      have hcongr : ∀ d ∈ p.1.dependencies,
          (List.lookup d stF.tierMap).getD 0 = tierFn out d := by
        intro d hd
        rcases hdep_fact p hp d hd with ⟨q, hq, hq2, hq3, hq4⟩
        rw [hq3, hq4]
      rw [hrec, foldl_max_congr _ _ _ _ hcongr]
    · intro p hp d hd
      rcases hdep_fact p hp d hd with ⟨q, hq, hq2, hq3, _⟩
      exact ⟨q, (hmem q).mpr hq, hq2, hq3⟩
    · intro p hp d hd q hq hq2
      have hrec := hI.rec_tier p ((hmem p).mp hp)
      have hlk : (List.lookup d stF.tierMap).getD 0 = q.2 := by
        have h4 := hI.tier_sorted q ((hmem q).mp hq)
        rw [hq2] at h4
        rw [h4]
        rfl
      have hle : q.2 ≤ p.1.dependencies.foldl
          (fun a d2 => max a ((List.lookup d2 stF.tierMap).getD 0)) (-1) := by
        rw [← hlk]
        exact foldl_max_mem_le _ p.1.dependencies (-1) d hd
      omega

end Tm2bd

namespace Tm2bd

/-- C1: for every acyclic, referentially complete task set (with the data
model's unique-id invariant), `topologicalSort` succeeds and returns every
input task exactly once, each paired with a tier equal to 0 when the task
has no dependencies and otherwise 1 plus the maximum tier of its
dependencies, and in the returned sequence every dependency of a task
appears strictly before that task. -/
theorem topologicalSort_correct (tasks : List TaskMasterTask)
    (hU : UniqueIds tasks) (hC : CompleteRefs tasks) (hA : Acyclic tasks) :
    ∃ out, topologicalSort tasks = .ok out ∧
      (out.map Prod.fst).Perm tasks ∧
      (∀ p ∈ out, p.1.dependencies = [] → p.2 = 0) ∧
      (∀ p ∈ out, p.1.dependencies ≠ [] →
        ∃ m, (∀ d ∈ p.1.dependencies, tierFn out d ≤ m) ∧
          (∃ d ∈ p.1.dependencies, tierFn out d = m) ∧ p.2 = m + 1) ∧
      (∀ j, ∀ hj : j < out.length, ∀ d ∈ (out.get ⟨j, hj⟩).1.dependencies,
        ∃ i, ∃ hi : i < out.length, i < j ∧ (out.get ⟨i, hi⟩).1.id = d) := by
  rcases hA with ⟨r, hr⟩
  rcases topologicalSort_progress tasks r (fun t ht d hd _ => hr t ht d hd) with
    ⟨out, hok⟩ | ⟨j, hj1, ⟨t, ht, hd⟩, _⟩
  · rcases topologicalSort_ok_facts tasks hU out hok with
      ⟨hperm, hnd, hsorted, hnonneg, hrec, hdep_ex, hdep_lt⟩
    refine ⟨out, hok, hperm, ?_, ?_, ?_⟩
    · intro p hp hdeps
      have h2 := hrec p hp
      rw [hdeps] at h2
      simpa using h2
    · intro p hp hdeps
      refine ⟨p.1.dependencies.foldl (fun a d => max a (tierFn out d)) (-1), ?_, ?_, ?_⟩
      · intro d hd
        exact foldl_max_mem_le _ _ _ d hd
      · rcases foldl_max_cases (tierFn out) p.1.dependencies (-1) with hcase | ⟨d, hd, hcase⟩
        · exfalso
          rcases List.exists_mem_of_ne_nil p.1.dependencies hdeps with ⟨d0, hd0⟩
          rcases hdep_ex p hp d0 hd0 with ⟨q, hq, _, hq3⟩
          have h5 : tierFn out d0 ≤ (-1 : Int) := by
            rw [← hcase]
            exact foldl_max_mem_le _ _ _ d0 hd0
          have h6 : (0 : Int) ≤ q.2 := hnonneg q hq
          rw [hq3] at h5
          omega
        · exact ⟨d, hd, hcase.symm⟩
      · exact hrec p hp
    · intro j hj d hd
      have hpmem : out.get ⟨j, hj⟩ ∈ out := List.get_mem out j hj
      rcases hdep_ex (out.get ⟨j, hj⟩) hpmem d hd with ⟨q, hq, hq2, _⟩
      have hlt : q.2 < (out.get ⟨j, hj⟩).2 := hdep_lt _ hpmem d hd q hq hq2
      rcases List.mem_iff_get.mp hq with ⟨⟨i, hi⟩, hqi⟩
      refine ⟨i, hi, ?_, by rw [hqi]; exact hq2⟩
      by_contra hge
      push_neg at hge
      rcases eq_or_lt_of_le hge with hEq | hlt2
      · subst hEq
        have h7 : out.get ⟨j, hj⟩ = q := hqi
        rw [h7] at hlt
        exact lt_irrefl _ hlt
      · have hpair := List.pairwise_iff_get.mp hsorted ⟨j, hj⟩ ⟨i, hi⟩ hlt2
        rw [hqi] at hpair
        rcases hpair with h5 | ⟨h5, _⟩
        · omega
        · omega
  · exact absurd (hC t ht j hd) hj1

/-- Witness for C1 at Scenario A's task set. -/
theorem topologicalSort_correct_witness :
    ∃ out, topologicalSort demoTasks = .ok out ∧
      (out.map Prod.fst).Perm demoTasks ∧
      (∀ p ∈ out, p.1.dependencies = [] → p.2 = 0) ∧
      (∀ p ∈ out, p.1.dependencies ≠ [] →
        ∃ m, (∀ d ∈ p.1.dependencies, tierFn out d ≤ m) ∧
          (∃ d ∈ p.1.dependencies, tierFn out d = m) ∧ p.2 = m + 1) ∧
      (∀ j, ∀ hj : j < out.length, ∀ d ∈ (out.get ⟨j, hj⟩).1.dependencies,
        ∃ i, ∃ hi : i < out.length, i < j ∧ (out.get ⟨i, hi⟩).1.id = d) :=
  topologicalSort_correct demoTasks (by unfold UniqueIds taskIds; decide)
    (by unfold CompleteRefs taskIds; decide)
    ⟨fun i => i.toNat, (by unfold AcyclicRank; decide)⟩

end Tm2bd

namespace Tm2bd

/-! Determinism of the sort: tier uniqueness and strict ordering. -/

theorem sortLt_asymm (a b : TaskMasterTask × Int) (h : sortLt a b) : ¬ sortLt b a := by
  rcases h with h | ⟨h1, h2⟩
  · rintro (h3 | ⟨h3, h4⟩) <;> omega
  · rintro (h3 | ⟨h3, h4⟩) <;> omega

theorem sorted_strict (out : List (TaskMasterTask × Int))
    (hs : List.Sorted sortLe out) (hnd : (out.map (fun p => p.1.id)).Nodup) :
    out.Pairwise sortLt := by
  have hne : out.Pairwise (fun a b => a.1.id ≠ b.1.id) := List.pairwise_map.mp hnd
  have hand := List.Pairwise.and hs hne
  refine hand.imp ?_
  rintro a b ⟨hle | ⟨h1, h2⟩, hneq⟩
  · exact Or.inl hle
  · exact Or.inr ⟨h1, lt_of_le_of_ne h2 hneq⟩

theorem perm_pairwise_eq {α : Type} {R : α → α → Prop}
    (hasymm : ∀ a b, R a b → ¬ R b a) :
    ∀ l1 l2 : List α, l1.Perm l2 → l1.Pairwise R → l2.Pairwise R → l1 = l2 := by
  intro l1
  induction l1 with
  | nil =>
    intro l2 hp _ _
    exact (hp.symm.eq_nil).symm
  | cons a t1 ih =>
    intro l2 hp h1 h2
    rcases l2 with _ | ⟨b, t2⟩
    · exact absurd hp.eq_nil (by simp)
    · have hab : a = b := by
        by_contra hne
        have ha2 : a ∈ b :: t2 := hp.mem_iff.mp (by simp)
        have hb1 : b ∈ a :: t1 := hp.mem_iff.mpr (by simp)
        have ha2b : a ∈ t2 := by
          rcases List.mem_cons.mp ha2 with h3 | h3
          · exact absurd h3 hne
          · exact h3
        have hb1a : b ∈ t1 := by
          rcases List.mem_cons.mp hb1 with h3 | h3
          · exact absurd h3.symm hne
          · exact h3
        have hRab : R a b := (List.pairwise_cons.mp h1).1 b hb1a
        have hRba : R b a := (List.pairwise_cons.mp h2).1 a ha2b
        exact hasymm a b hRab hRba
      subst hab
      have hperm2 : t1.Perm t2 := hp.cons_inv
      rw [ih t2 hperm2 (List.pairwise_cons.mp h1).2 (List.pairwise_cons.mp h2).2]

theorem pairs_eq_map (out : List (TaskMasterTask × Int))
    (hnd : (out.map (fun p => p.1.id)).Nodup) :
    out = (out.map Prod.fst).map (fun t => (t, tierFn out t.id)) := by
  rw [List.map_map]
  have h1 : out.map ((fun t => (t, tierFn out t.id)) ∘ Prod.fst) = out.map id := by
    refine List.map_congr_left ?_
    intro p hp
    show (p.1, tierFn out p.1.id) = p
    rw [tierFn_mem out hnd p hp]
  rw [h1, List.map_id]

theorem tier_unique (tasks : List TaskMasterTask) (r : Int → Nat)
    (hr : AcyclicRank tasks r) (hC : CompleteRefs tasks)
    (out1 out2 : List (TaskMasterTask × Int))
    (hperm1 : (out1.map Prod.fst).Perm tasks)
    (hperm2 : (out2.map Prod.fst).Perm tasks)
    (hnd1 : (out1.map (fun p => p.1.id)).Nodup)
    (hnd2 : (out2.map (fun p => p.1.id)).Nodup)
    (hrec1 : ∀ p ∈ out1, p.2 =
      (p.1.dependencies.foldl (fun a d => max a (tierFn out1 d)) (-1)) + 1)
    (hrec2 : ∀ p ∈ out2, p.2 =
      (p.1.dependencies.foldl (fun a d => max a (tierFn out2 d)) (-1)) + 1) :
    ∀ n, ∀ t ∈ tasks, r t.id < n → tierFn out1 t.id = tierFn out2 t.id := by
  intro n
  induction n with
  | zero =>
    intro t _ hlt
    omega
  | succ n ih =>
    intro t ht hlt
    rcases List.mem_map.mp (hperm1.mem_iff.mpr ht) with ⟨p1, hp1, hp1e⟩
    rcases List.mem_map.mp (hperm2.mem_iff.mpr ht) with ⟨p2, hp2, hp2e⟩
    have ht1 : tierFn out1 t.id = p1.2 := by
      rw [← hp1e]
      exact tierFn_mem out1 hnd1 p1 hp1
    have ht2 : tierFn out2 t.id = p2.2 := by
      rw [← hp2e]
      exact tierFn_mem out2 hnd2 p2 hp2
    have hdeps : ∀ d ∈ t.dependencies, tierFn out1 d = tierFn out2 d := by
      intro d hd
      rcases List.mem_map.mp (hC t ht d hd) with ⟨td, htd, htde⟩
      have hrd : r d < r t.id := hr t ht d hd
      have h5 := ih td htd (by rw [htde]; omega)
      rwa [htde] at h5
    rw [ht1, ht2, hrec1 p1 hp1, hrec2 p2 hp2, hp1e, hp2e,
      foldl_max_congr _ _ _ _ hdeps]

/-- C3: `topologicalSort` is deterministic and independent of input
order: for every task set (unique ids, referentially complete, acyclic)
and every permutation of the input array, the output sequence is
identical, and the output is ordered by strictly ascending (tier, id)
lexicographically — a strict total order on the output. -/
theorem topologicalSort_deterministic (tasks tasks2 : List TaskMasterTask)
    (hU : UniqueIds tasks) (hC : CompleteRefs tasks) (hA : Acyclic tasks)
    (hperm : tasks.Perm tasks2) :
    topologicalSort tasks = topologicalSort tasks2 ∧
    ∃ out, topologicalSort tasks = .ok out ∧ out.Pairwise sortLt := by
  rcases hA with ⟨r, hr⟩
  have hU2 : UniqueIds tasks2 := by
    have h1 : (taskIds tasks).Perm (taskIds tasks2) := by
      unfold taskIds
      exact hperm.map (fun t => t.id)
    exact h1.nodup_iff.mp hU
  have hC2 : CompleteRefs tasks2 := by
    intro t ht d hd
    have h1 : t ∈ tasks := hperm.mem_iff.mpr ht
    exact (hperm.map (fun t => t.id)).mem_iff.mp (hC t h1 d hd)
  have hr2 : AcyclicRank tasks2 r := by
    intro t ht d hd
    exact hr t (hperm.mem_iff.mpr ht) d hd
  rcases topologicalSort_progress tasks r (fun t ht d hd _ => hr t ht d hd) with
    ⟨out1, hok1⟩ | ⟨j, hj1, ⟨t, ht, hd⟩, _⟩
  swap
  · exact absurd (hC t ht j hd) hj1
  rcases topologicalSort_progress tasks2 r (fun t ht d hd _ => hr2 t ht d hd) with
    ⟨out2, hok2⟩ | ⟨j, hj1, ⟨t, ht, hd⟩, _⟩
  swap
  · exact absurd (hC2 t ht j hd) hj1
  rcases topologicalSort_ok_facts tasks hU out1 hok1 with
    ⟨hperm1, hnd1, hsorted1, _, hrec1, _, _⟩
  rcases topologicalSort_ok_facts tasks2 hU2 out2 hok2 with
    ⟨hperm2b, hnd2, hsorted2, _, hrec2, _, _⟩
  have hperm2 : (out2.map Prod.fst).Perm tasks := hperm2b.trans hperm.symm
  have huniq : ∀ t ∈ tasks, tierFn out1 t.id = tierFn out2 t.id := by
    intro t ht
    exact tier_unique tasks r hr hC out1 out2 hperm1 hperm2 hnd1 hnd2 hrec1 hrec2
      (r t.id + 1) t ht (by omega)
  have houts : out1.Perm out2 := by
    have he1 : out1 = (out1.map Prod.fst).map (fun t => (t, tierFn out1 t.id)) :=
      pairs_eq_map out1 hnd1
    have he2 : out2 = (out2.map Prod.fst).map (fun t => (t, tierFn out2 t.id)) :=
      pairs_eq_map out2 hnd2
    have hp1 : out1.Perm (tasks.map (fun t => (t, tierFn out1 t.id))) := by
      have h2 : ((out1.map Prod.fst).map (fun t => (t, tierFn out1 t.id))).Perm
          (tasks.map (fun t => (t, tierFn out1 t.id))) :=
        hperm1.map (fun t => (t, tierFn out1 t.id))
      rw [← he1] at h2
      exact h2
    have hp2 : out2.Perm (tasks.map (fun t => (t, tierFn out2 t.id))) := by
      have h2 : ((out2.map Prod.fst).map (fun t => (t, tierFn out2 t.id))).Perm
          (tasks.map (fun t => (t, tierFn out2 t.id))) :=
        hperm2.map (fun t => (t, tierFn out2 t.id))
      rw [← he2] at h2
      exact h2
    have heq : tasks.map (fun t => (t, tierFn out1 t.id)) =
        tasks.map (fun t => (t, tierFn out2 t.id)) := by
      refine List.map_congr_left ?_
      intro t ht
      rw [huniq t ht]
    rw [heq] at hp1
    exact hp1.trans hp2.symm
  have hstrict1 : out1.Pairwise sortLt := sorted_strict out1 hsorted1 hnd1
  have hstrict2 : out2.Pairwise sortLt := sorted_strict out2 hsorted2 hnd2
  have hEq : out1 = out2 :=
    perm_pairwise_eq sortLt_asymm out1 out2 houts hstrict1 hstrict2
  refine ⟨?_, out1, hok1, hstrict1⟩
  rw [hok1, hok2, hEq]

/-- Witness for C3 at Scenario A's task set and a shuffled copy. -/
theorem topologicalSort_deterministic_witness :
    topologicalSort demoTasks = topologicalSort demoTasksShuffled ∧
    ∃ out, topologicalSort demoTasks = .ok out ∧ out.Pairwise sortLt :=
  topologicalSort_deterministic demoTasks demoTasksShuffled
    (by unfold UniqueIds taskIds; decide) (by unfold CompleteRefs taskIds; decide)
    ⟨fun i => i.toNat, (by unfold AcyclicRank; decide)⟩ (by decide)

end Tm2bd

namespace Tm2bd

/-! The sort walk never exhausts the fuel bound `tasks.length + 1`. -/

theorem tsVisit_nofuel (tasks : List TaskMasterTask) :
    ∀ fuel taskId st,
      TsInv tasks st →
      st.visiting.Nodup →
      (∀ v ∈ st.visiting, v ∈ taskIds tasks) →
      tasks.length + 1 ≤ fuel + st.visiting.length →
      tsVisit (buildTaskMap tasks) fuel taskId st ≠ .error tsFuelMsg := by
  intro fuel
  induction fuel with
  | zero =>
    intro taskId st hInv hnd hsub hsum
    exfalso
    have h6 := nodup_subset_length hnd hsub
    have h7 : (taskIds tasks).length = tasks.length := by simp [taskIds]
    omega
  | succ fuel ih =>
    intro taskId st hInv hnd hsub hsum
    rw [tsVisit]
    by_cases hvst : taskId ∈ st.visited
    · rw [if_pos hvst]
      rcases lookup_mem_keys st.tierMap taskId
          (by rw [hInv.tier_keys]; simpa using hvst) with ⟨k0, hk0⟩
      rw [hk0]
      simp
    · rw [if_neg hvst]
      by_cases hvg : taskId ∈ st.visiting
      · rw [if_pos hvg]
        intro h
        injection h with h2
        exact cycleMsg_ne_fuel taskId h2
      · rw [if_neg hvg]
        rcases htask : buildTaskMap tasks taskId with _ | task
        · intro h
          injection h with h2
          exact notFoundMsg_ne_fuel taskId h2
        · have htid : taskId ∈ taskIds tasks := buildTaskMap_some_id_mem htask
          have hfoldnf : ∀ ds st0 acc,
              TsInv tasks st0 →
              st0.visiting.Nodup →
              (∀ v ∈ st0.visiting, v ∈ taskIds tasks) →
              tasks.length + 1 ≤ fuel + st0.visiting.length →
              tsFold (fun d s => tsVisit (buildTaskMap tasks) fuel d s) ds st0 acc ≠
                .error tsFuelMsg := by
            intro ds
            induction ds with
            | nil =>
              intro st0 acc _ _ _ _
              rw [tsFold]
              simp
            | cons d ds2 ihd =>
              intro st0 acc hI0 hnd0 hsub0 hsum0
              rw [tsFold]
              rcases hv : tsVisit (buildTaskMap tasks) fuel d st0 with e | p
              · have hne := ih d st0 hI0 hnd0 hsub0 hsum0
                rw [hv] at hne
                intro h
                injection h with h2
                exact hne (by rw [h2])
              · rcases p with ⟨st1, k1⟩
                rcases tsVisit_pres tasks fuel d st0 st1 k1 hI0 hv with ⟨hI1, hP1⟩
                have h5 := ihd st1 (max acc k1) hI1
                  (by rw [hP1.visiting_eq]; exact hnd0)
                  (by rw [hP1.visiting_eq]; exact hsub0)
                  (by rw [hP1.visiting_eq]; exact hsum0)
                simpa using h5
          have h6 := hfoldnf task.dependencies
              { st with visiting := st.visiting ++ [taskId] } (-1)
              (tsInv_set_visiting tasks st _ hInv)
              (by
                refine List.nodup_append.mpr ⟨hnd, List.nodup_singleton _, ?_⟩
                intro x hx hx2
                have hx3 := List.mem_singleton.mp hx2
                subst hx3
                exact hvg hx)
              (by
                intro v hv
                rcases List.mem_append.mp hv with h2 | h2
                · exact hsub v h2
                · have h3 := List.mem_singleton.mp h2
                  subst h3
                  exact htid)
              (by simp only [List.length_append, List.length_singleton]; omega)
          rcases hf : tsFold (fun d s => tsVisit (buildTaskMap tasks) fuel d s)
              task.dependencies { st with visiting := st.visiting ++ [taskId] } (-1) with
            e | p
          · rw [hf] at h6
            intro h
            simp only [hf] at h
            exact h6 h
          · rcases p with ⟨stD, mD⟩
            intro h
            simp only [hf] at h
            simp at h

theorem tsRun_nofuel (tasks : List TaskMasterTask) :
    ∀ ts st, TsInv tasks st → st.visiting = [] →
      tsRun (buildTaskMap tasks) (tasks.length + 1) ts st ≠ .error tsFuelMsg := by
  intro ts
  induction ts with
  | nil =>
    intro st _ _
    rw [tsRun]
    simp
  | cons t ts ih =>
    intro st hInv hvis
    rw [tsRun]
    by_cases hv : t.id ∈ st.visited
    · rw [if_pos hv]
      exact ih st hInv hvis
    · rw [if_neg hv]
      rcases hvv : tsVisit (buildTaskMap tasks) (tasks.length + 1) t.id st with e | p
      · have hne := tsVisit_nofuel tasks (tasks.length + 1) t.id st hInv
          (by rw [hvis]; exact List.nodup_nil) (by rw [hvis]; simp)
          (by rw [hvis]; simp)
        rw [hvv] at hne
        intro h
        injection h with h2
        exact hne (by rw [h2])
      · rcases p with ⟨st1, k⟩
        rcases tsVisit_pres tasks (tasks.length + 1) t.id st st1 k hInv hvv with ⟨hI1, hP1⟩
        have h5 := ih st1 hI1 (hP1.visiting_eq.trans hvis)
        simpa using h5

/-! Under referential completeness the walk either succeeds or throws a
cycle error. -/

theorem tsVisit_total (tasks : List TaskMasterTask) (hC : CompleteRefs tasks) :
    ∀ fuel taskId st,
      TsInv tasks st →
      taskId ∈ taskIds tasks →
      st.visiting.Nodup →
      (∀ v ∈ st.visiting, v ∈ taskIds tasks) →
      tasks.length + 1 ≤ fuel + st.visiting.length →
      (∃ st2 k, tsVisit (buildTaskMap tasks) fuel taskId st = .ok (st2, k)) ∨
      (∃ i, tsVisit (buildTaskMap tasks) fuel taskId st = .error (cycleMsg i)) := by
  intro fuel
  induction fuel with
  | zero =>
    intro taskId st hInv hid hnd hsub hsum
    exfalso
    have h6 := nodup_subset_length hnd hsub
    have h7 : (taskIds tasks).length = tasks.length := by simp [taskIds]
    omega
  | succ fuel ih =>
    intro taskId st hInv hid hnd hsub hsum
    by_cases hvst : taskId ∈ st.visited
    · rcases lookup_mem_keys st.tierMap taskId
          (by rw [hInv.tier_keys]; simpa using hvst) with ⟨k0, hk0⟩
      left
      exact ⟨st, k0, by rw [tsVisit, if_pos hvst, hk0]⟩
    · by_cases hvg : taskId ∈ st.visiting
      · right
        exact ⟨taskId, by rw [tsVisit, if_neg hvst, if_pos hvg]⟩
      · rcases htask : buildTaskMap tasks taskId with _ | task
        · exact absurd hid (buildTaskMap_none_not_mem htask)
        · rcases buildTaskMap_some_mem htask with ⟨htm, htid⟩
          have hfoldt : ∀ ds st0,
              TsInv tasks st0 →
              st0.visiting.Nodup →
              (∀ v ∈ st0.visiting, v ∈ taskIds tasks) →
              tasks.length + 1 ≤ fuel + st0.visiting.length →
              (∀ d ∈ ds, d ∈ taskIds tasks) →
              ∀ acc,
              (∃ stF m,
                tsFold (fun d s => tsVisit (buildTaskMap tasks) fuel d s) ds st0 acc =
                  .ok (stF, m)) ∨
              (∃ i, tsFold (fun d s => tsVisit (buildTaskMap tasks) fuel d s) ds st0 acc =
                .error (cycleMsg i)) := by
            intro ds
            induction ds with
            | nil =>
              intro st0 _ _ _ _ _ acc
              left
              exact ⟨st0, acc, by rw [tsFold]⟩
            | cons d ds2 ihd =>
              intro st0 hI0 hnd0 hsub0 hsum0 hds acc
              rcases ih d st0 hI0 (hds d (by simp)) hnd0 hsub0 hsum0 with
                ⟨st1, k1, hok⟩ | ⟨i, herr⟩
              · rcases tsVisit_pres tasks fuel d st0 st1 k1 hI0 hok with ⟨hI1, hP1⟩
                rcases ihd st1 hI1
                    (by rw [hP1.visiting_eq]; exact hnd0)
                    (by rw [hP1.visiting_eq]; exact hsub0)
                    (by rw [hP1.visiting_eq]; exact hsum0)
                    (fun d2 hd2 => hds d2 (by simp [hd2])) (max acc k1) with
                  ⟨stF, m, hok2⟩ | ⟨i, herr2⟩
                · left
                  refine ⟨stF, m, ?_⟩
                  rw [tsFold, hok]
                  simpa using hok2
                · right
                  refine ⟨i, ?_⟩
                  rw [tsFold, hok]
                  simpa using herr2
              · right
                refine ⟨i, ?_⟩
                rw [tsFold, herr]
          rcases hfoldt task.dependencies
              { st with visiting := st.visiting ++ [taskId] }
              (tsInv_set_visiting tasks st _ hInv)
              (by
                refine List.nodup_append.mpr ⟨hnd, List.nodup_singleton _, ?_⟩
                intro x hx hx2
                have hx3 := List.mem_singleton.mp hx2
                subst hx3
                exact hvg hx)
              (by
                intro v hv
                rcases List.mem_append.mp hv with h2 | h2
                · exact hsub v h2
                · have h3 := List.mem_singleton.mp h2
                  subst h3
                  exact hid)
              (by simp only [List.length_append, List.length_singleton]; omega)
              (fun d hd => hC task htm d hd) (-1) with
            ⟨stF, m, hok⟩ | ⟨i, herr⟩
          · left
            refine ⟨{ visited := stF.visited ++ [taskId],
                      visiting := stF.visiting.erase taskId,
                      tierMap := (taskId, m + 1) :: stF.tierMap,
                      sorted := stF.sorted ++ [(task, m + 1)] }, m + 1, ?_⟩
            rw [tsVisit, if_neg hvst, if_neg hvg, htask]
            simp only []
            rw [hok]
          · right
            refine ⟨i, ?_⟩
            rw [tsVisit, if_neg hvst, if_neg hvg, htask]
            simp only []
            rw [herr]

theorem tsRun_total (tasks : List TaskMasterTask) (hC : CompleteRefs tasks) :
    ∀ ts st, TsInv tasks st → st.visiting = [] → (∀ t ∈ ts, t ∈ tasks) →
      (∃ stF, tsRun (buildTaskMap tasks) (tasks.length + 1) ts st = .ok stF) ∨
      (∃ i, tsRun (buildTaskMap tasks) (tasks.length + 1) ts st = .error (cycleMsg i)) := by
  intro ts
  induction ts with
  | nil =>
    intro st _ _ _
    left
    exact ⟨st, by rw [tsRun]⟩
  | cons t ts ih =>
    intro st hInv hvis hts
    by_cases hv : t.id ∈ st.visited
    · rcases ih st hInv hvis (fun t2 ht2 => hts t2 (by simp [ht2])) with
        ⟨stF, hF⟩ | ⟨i, herr⟩
      · left
        exact ⟨stF, by rw [tsRun, if_pos hv]; exact hF⟩
      · right
        exact ⟨i, by rw [tsRun, if_pos hv]; exact herr⟩
    · have htmem : t ∈ tasks := hts t (by simp)
      have hid : t.id ∈ taskIds tasks := List.mem_map_of_mem (fun q => q.id) htmem
      rcases tsVisit_total tasks hC (tasks.length + 1) t.id st hInv hid
          (by rw [hvis]; exact List.nodup_nil) (by rw [hvis]; simp)
          (by rw [hvis]; simp) with ⟨st1, k, hok⟩ | ⟨i, herr⟩
      · rcases tsVisit_pres tasks (tasks.length + 1) t.id st st1 k hInv hok with ⟨hI1, hP1⟩
        rcases ih st1 hI1 (hP1.visiting_eq.trans hvis)
            (fun t2 ht2 => hts t2 (by simp [ht2])) with ⟨stF, hF⟩ | ⟨i, herr⟩
        · left
          refine ⟨stF, ?_⟩
          rw [tsRun, if_neg hv, hok]
          simpa using hF
        · right
          refine ⟨i, ?_⟩
          rw [tsRun, if_neg hv, hok]
          simpa using herr
      · right
        refine ⟨i, ?_⟩
        rw [tsRun, if_neg hv, herr]

theorem chain_lt_of_dec {R : Int → Int → Prop} (f : Int → Int)
    (hdec : ∀ a b, R a b → f b < f a) :
    ∀ (l : List Int) (a b : Int), List.Chain R a l → l.getLast? = some b → f b < f a := by
  intro l
  induction l with
  | nil =>
    intro a b _ h
    cases h
  | cons c l2 ih =>
    intro a b hch hlast
    have hedge : R a c := (List.chain_cons.mp hch).1
    have hch2 : List.Chain R c l2 := (List.chain_cons.mp hch).2
    rcases l2 with _ | ⟨d, l3⟩
    · have hbc : c = b := by simpa using hlast
      subst hbc
      exact hdec a c hedge
    · have hlast2 : (d :: l3).getLast? = some b := by
        rw [← hlast]
        simp [List.getLast?]
      exact lt_trans (ih c b hch2 hlast2) (hdec a c hedge)

end Tm2bd

namespace Tm2bd

/-- C7 counterexample: the task set `[{id 1, deps [99, 1]}]` contains a
dependency cycle (task 1 depends on itself), yet `topologicalSort` fails
with the unresolved-reference error for 99, which the walk hits first,
and never with a cycle error: the claim's clause that every task set
containing a cycle fails with a cycle-specific error is false as stated. -/
theorem topologicalSort_cycle_claim_cex :
    HasCycle [mkTask 1 [99, 1]] ∧
    topologicalSort [mkTask 1 [99, 1]] = .error (notFoundMsg 99) ∧
    (∀ i, topologicalSort [mkTask 1 [99, 1]] ≠ .error (cycleMsg i)) := by
  refine ⟨⟨1, [], ?_⟩, rfl, ?_⟩
  · show List.Chain (DepEdge (buildTaskMap [mkTask 1 [99, 1]])) 1 ([] ++ [1])
    exact List.Chain.cons
      (show (1 : Int) ∈ ([99, 1] : List Int) by decide) List.Chain.nil
  · intro i h
    rw [show topologicalSort [mkTask 1 [99, 1]] = .error (notFoundMsg 99) from rfl] at h
    injection h with h2
    exact cycleMsg_ne_notFoundMsg i 99 h2.symm

/-- C7 (amended): with the data model's unique-id invariant, the sort
separates its failure modes as follows. On every acyclic task set
containing a missing dependency reference it fails with the
unresolved-reference error for some absent id; on every referentially
complete task set containing a dependency cycle (including a single
self-dependency) it fails with the cycle-specific error; the two error
messages are always distinguishable; and on every task set the walk
stays within the recursion-depth bound `tasks.length + 1`, never
producing the model's fuel-exhaustion marker (no unbounded recursion). -/
theorem topologicalSort_failure_modes (tasks : List TaskMasterTask)
    (hU : UniqueIds tasks) :
    ((Acyclic tasks ∧ ∃ t ∈ tasks, ∃ d ∈ t.dependencies, d ∉ taskIds tasks) →
      ∃ j, j ∉ taskIds tasks ∧ topologicalSort tasks = .error (notFoundMsg j)) ∧
    ((CompleteRefs tasks ∧ HasCycle tasks) →
      ∃ i, topologicalSort tasks = .error (cycleMsg i)) ∧
    (∀ i j, cycleMsg i ≠ notFoundMsg j) ∧
    topologicalSort tasks ≠ .error tsFuelMsg := by
  refine ⟨?_, ?_, cycleMsg_ne_notFoundMsg, ?_⟩
  · rintro ⟨⟨r, hr⟩, t, ht, d, hd, hdid⟩
    rcases topologicalSort_progress tasks r (fun t2 ht2 d2 hd2 _ => hr t2 ht2 d2 hd2) with
      ⟨out, hok⟩ | ⟨j, hj1, _, herr⟩
    · exfalso
      rcases topologicalSort_ok_facts tasks hU out hok with
        ⟨hperm, _, _, _, _, hdep_ex, _⟩
      have htout : t ∈ out.map Prod.fst := hperm.mem_iff.mpr ht
      rcases List.mem_map.mp htout with ⟨p, hp, hpe⟩
      rcases hdep_ex p hp d (by rw [hpe]; exact hd) with ⟨q, hq, hq2, _⟩
      have hq1 : q.1 ∈ tasks := hperm.mem_iff.mp (List.mem_map_of_mem Prod.fst hq)
      exact hdid (hq2 ▸ List.mem_map_of_mem (fun x => x.id) hq1)
    · exact ⟨j, hj1, herr⟩
  · rintro ⟨hC, i0, l, hchain⟩
    rcases tsRun_total tasks hC tasks ⟨[], [], [], []⟩ (tsInv_init tasks) rfl
        (fun t ht => ht) with ⟨stF, hF⟩ | ⟨i, herr⟩
    · exfalso
      have hok : topologicalSort tasks = .ok (List.insertionSort sortLe stF.sorted) := by
        unfold topologicalSort
        rw [hF]
      rcases topologicalSort_ok_facts tasks hU _ hok with
        ⟨hperm, hnd, _, _, _, hdep_ex, hdep_lt⟩
      have hdec : ∀ a b, DepEdge (buildTaskMap tasks) a b →
          tierFn (List.insertionSort sortLe stF.sorted) b <
            tierFn (List.insertionSort sortLe stF.sorted) a := by
        intro a b hedge
        unfold DepEdge at hedge
        rcases htm : buildTaskMap tasks a with _ | t2
        · rw [htm] at hedge
          cases hedge
        · rw [htm] at hedge
          rcases buildTaskMap_some_mem htm with ⟨htmem, htid⟩
          have ht2 : t2 ∈ (List.insertionSort sortLe stF.sorted).map Prod.fst :=
            hperm.mem_iff.mpr htmem
          rcases List.mem_map.mp ht2 with ⟨p, hp, hpe⟩
          have hbd : b ∈ p.1.dependencies := by rw [hpe]; exact hedge
          rcases hdep_ex p hp b hbd with ⟨q, hq, hq2, hq3⟩
          have hlt : q.2 < p.2 := hdep_lt p hp b hbd q hq hq2
          have hta : tierFn (List.insertionSort sortLe stF.sorted) a = p.2 := by
            have h5 := tierFn_mem _ hnd p hp
            rw [hpe, htid] at h5
            exact h5
          rw [hq3, hta]
          exact hlt
      have hlast : (l ++ [i0]).getLast? = some i0 := by simp
      have h6 := chain_lt_of_dec (tierFn (List.insertionSort sortLe stF.sorted)) hdec
        (l ++ [i0]) i0 i0 hchain hlast
      omega
    · refine ⟨i, ?_⟩
      unfold topologicalSort
      rw [herr]
  · intro h
    unfold topologicalSort at h
    rcases hF : tsRun (buildTaskMap tasks) (tasks.length + 1) tasks ⟨[], [], [], []⟩ with
      e | stF
    · rw [hF] at h
      simp only [] at h
      injection h with h2
      exact tsRun_nofuel tasks tasks ⟨[], [], [], []⟩ (tsInv_init tasks) rfl
        (by rw [hF, h2])
    · rw [hF] at h
      simp at h

/-- Witness for C7 at the self-dependent, referentially complete task 1. -/
theorem topologicalSort_failure_modes_witness :
    ∃ i, topologicalSort [mkTask 1 [1]] = .error (cycleMsg i) :=
  (topologicalSort_failure_modes [mkTask 1 [1]]
    (by unfold UniqueIds taskIds; decide)).2.1
    ⟨(by unfold CompleteRefs taskIds; decide), 1, [],
      List.Chain.cons (show (1 : Int) ∈ ([1] : List Int) by decide) List.Chain.nil⟩

end Tm2bd
